import Mathlib

/-!
Verification development for the batchdav WebDAV tree crawler.

The development shallowly embeds the core of the repository:

* `src/xml.rs` — the token type and the winnow-based multistatus parser
  (tokens, the `extensions`/`text` sub-parsers, `response`, `propstat`,
  `prop_tag`, `href_tag`, `status_tag`, `responsedescription`, `location`,
  the top-level `parse`, and `is_ok`).  The XML tokenizer itself (the
  `xml-rs` stage) is an external collaborator; all properties here are
  stated on token streams, exactly the input type of `parse`.
* `src/client.rs` — the post-processing of `Client::list_directory`
  (`error_for_status`, `paths_to_urls`, the self-reference filter
  `is_collection_url`).  URL joining is performed by the external `url`
  crate and is abstracted as a function parameter.
* `src/btn.rs` — the bounded tree nursery, embedded as a transition
  system for the semaphore-bounded task lifecycle and as a pure model of
  `BoundedTreeNursery::poll_next`.

Winnow's error modes are embedded faithfully: a parser either succeeds
with a value and the remaining input, fails recoverably (`Backtrack`,
letting `alt`/`opt`/`repeat` try something else at the original input
position) or fails unrecoverably (`Cut`, produced by `hard_fail`).
-/

set_option linter.unusedVariables false

namespace Batchdav

/-- Token type from `src/xml.rs` (`enum Token`).  An element in the `DAV:`
namespace or with no namespace is "standard" (`openDav`/`closeDav`); all
other namespaces are "extension" tokens. -/
inductive Token : Type where
  | openDav (name : String)
  | closeDav (name : String)
  | openExt (name : String) (namespc : String)
  | closeExt (name : String) (namespc : String)
  | text (content : String)
deriving DecidableEq, Repr

/-- Result of running an embedded winnow parser: success with remaining
input, a backtrackable error (`ErrMode::Backtrack`) or a committed error
(`ErrMode::Cut`). -/
inductive PRes (α : Type) : Type where
  | ok (val : α) (rest : List Token)
  | back
  | cut
deriving DecidableEq, Repr

/-- An embedded winnow parser over token streams. -/
def PParser (α : Type) : Type := List Token → PRes α

/-- Embedding of winnow's `literal(tok)`: consume exactly the given token,
failing recoverably otherwise (cf. the `Compare<Token>` impl in
`src/xml.rs`). -/
def lit (t : Token) : PParser Unit := fun input =>
  match input with
  | [] => PRes.back
  | c :: rest => if c = t then PRes.ok () rest else PRes.back

/-- Embedding of winnow's `Parser::map`. -/
def pMap {α β : Type} (f : α → β) (p : PParser α) : PParser β := fun input =>
  match p input with
  | PRes.ok a rest => PRes.ok (f a) rest
  | PRes.back => PRes.back
  | PRes.cut => PRes.cut

/-- Sequencing, keeping the second value (winnow `preceded` / the `_:`
fields of `seq!`). -/
def pThen {α β : Type} (p : PParser α) (q : PParser β) : PParser β := fun input =>
  match p input with
  | PRes.ok _ rest => q rest
  | PRes.back => PRes.back
  | PRes.cut => PRes.cut

/-- Sequencing, keeping the first value (winnow `terminated`). -/
def pLeft {α β : Type} (p : PParser α) (q : PParser β) : PParser α := fun input =>
  match p input with
  | PRes.ok a rest =>
    match q rest with
    | PRes.ok _ rest2 => PRes.ok a rest2
    | PRes.back => PRes.back
    | PRes.cut => PRes.cut
  | PRes.back => PRes.back
  | PRes.cut => PRes.cut

/-- Embedding of winnow's `alt((p, q))`: try `q` only if `p` fails with a
backtrackable error; a `Cut` aborts the alternation. -/
def pAlt {α : Type} (p q : PParser α) : PParser α := fun input =>
  match p input with
  | PRes.ok a rest => PRes.ok a rest
  | PRes.back => q input
  | PRes.cut => PRes.cut

/-- Embedding of winnow's `opt(p)`. -/
def pOpt {α : Type} (p : PParser α) : PParser (Option α) := fun input =>
  match p input with
  | PRes.ok a rest => PRes.ok (some a) rest
  | PRes.back => PRes.ok none input
  | PRes.cut => PRes.cut

/-- Embedding of winnow's `delimited(a, b, c)`. -/
def delimited {α β γ : Type} (a : PParser α) (b : PParser β) (c : PParser γ) :
    PParser β :=
  pLeft (pThen a b) c

/-- Fuelled loop body for winnow's `repeat(0.., p)`: iterate `p` until it
fails with `Backtrack` (which ends the loop at the position before that
attempt); a `Cut` propagates.  Winnow rejects an iteration that consumes
no input (infinite-loop protection); in release builds that surfaces as a
committed error, embedded here as `cut`.  The fuel is in excess of the
input length, so the
`0` case is unreachable for the fuel chosen in `repeat0`. -/
def repeat0F {α : Type} (p : PParser α) : Nat → List Token → PRes (List α)
  | 0, _ => PRes.cut
  | fuel + 1, input =>
    match p input with
    | PRes.ok a rest =>
      if rest.length < input.length then
        match repeat0F p fuel rest with
        | PRes.ok xs rest2 => PRes.ok (a :: xs) rest2
        | PRes.back => PRes.cut
        | PRes.cut => PRes.cut
      else PRes.cut
    | PRes.back => PRes.ok [] input
    | PRes.cut => PRes.cut

/-- Embedding of winnow's `repeat(0.., p)`. -/
def repeat0 {α : Type} (p : PParser α) : PParser (List α) := fun input =>
  repeat0F p (input.length + 1) input

/-- Embedding of winnow's `Parser::parse`: the whole input must be
consumed. -/
def runParse {α : Type} (p : PParser α) (input : List Token) : Option α :=
  match p input with
  | PRes.ok a [] => some a
  | _ => none

/-- The `open` helper from `src/xml.rs` (named `openD` since `open` is a
Lean keyword). -/
def openD (name : String) : PParser Unit := lit (Token.openDav name)

/-- The `close` helper from `src/xml.rs`. -/
def closeD (name : String) : PParser Unit := lit (Token.closeDav name)

/-- Loop of the `extensions` parser from `src/xml.rs`: skip a maximal
well-nested run of extension tokens (text allowed only inside an open
extension element), stopping at the first standard token seen at nesting
depth zero; a standard token inside an unclosed extension element, text at
depth zero, or a mismatched extension close tag is a `hard_fail` (cut). -/
def extGo : List (String × String) → List Token → PRes Unit
  | _, [] => PRes.ok () []
  | stack, t :: rest =>
    match t with
    | Token.openExt n ns => extGo ((n, ns) :: stack) rest
    | Token.closeExt n ns =>
      match stack with
      | [] => PRes.cut
      | top :: stack2 =>
        if top = (n, ns) then extGo stack2 rest else PRes.cut
    | Token.text _ =>
      match stack with
      | [] => PRes.cut
      | _ :: _ => extGo stack rest
    | Token.openDav _ =>
      match stack with
      | [] => PRes.ok () (t :: rest)
      | _ :: _ => PRes.cut
    | Token.closeDav _ =>
      match stack with
      | [] => PRes.ok () (t :: rest)
      | _ :: _ => PRes.cut

/-- The `extensions` parser from `src/xml.rs`. -/
def extensions : PParser Unit := fun input => extGo [] input

/-- Loop of the `text` parser from `src/xml.rs`: concatenate the maximal
run of consecutive `Text` tokens. -/
def textGo : List Token → String × List Token
  | Token.text s :: rest =>
    let r := textGo rest
    (s ++ r.1, r.2)
  | input => ("", input)

/-- The `text` parser from `src/xml.rs`; it always succeeds. -/
def text : PParser String := fun input =>
  PRes.ok (textGo input).1 (textGo input).2

/-- Parser-internal `Response` record from `src/xml.rs`. -/
structure Response : Type where
  href : String
  is_collection : Bool
  status : String
deriving DecidableEq, Repr

/-- Parser-internal `Propstat` record from `src/xml.rs`. -/
structure Propstat : Type where
  is_collection : Option Bool
  status : String
deriving DecidableEq, Repr

/-- The `ResponseChild` enum from `src/xml.rs`. -/
inductive ResponseChild : Type where
  | href (value : String)
  | propstat (ps : Propstat)
  | discard
deriving DecidableEq, Repr

/-- The `PropstatChild` enum from `src/xml.rs`. -/
inductive PropstatChild : Type where
  | isCollection (yesno : Bool)
  | status (s : String)
  | discard
deriving DecidableEq, Repr

/-- The `prop_tag` parser from `src/xml.rs`; the Rust code wraps the
boolean in a single-field `Prop` struct, elided here.  `<prop>` must
contain exactly a `<resourcetype>` holding an optional
`<collection/>`. -/
def prop_tag : PParser Bool :=
  pThen (openD ("prop"))
    (pThen (openD ("resourcetype"))
      (pLeft
        (pLeft
          (pMap (fun o => o.isSome)
            (pOpt (pThen (openD ("collection")) (closeD ("collection")))))
          (closeD ("resourcetype")))
        (closeD ("prop"))))

/-- The `href_tag` parser from `src/xml.rs`. -/
def href_tag : PParser String :=
  delimited (openD ("href")) text (closeD ("href"))

/-- The `status_tag` parser from `src/xml.rs`. -/
def status_tag : PParser String :=
  delimited (openD ("status")) text (closeD ("status"))

/-- The `responsedescription` parser from `src/xml.rs`. -/
def responsedescription : PParser Unit :=
  pMap (fun _ => ())
    (delimited (openD ("responsedescription")) text
      (closeD ("responsedescription")))

/-- The `location` parser from `src/xml.rs`:
`seq!(open("location"), extensions, href_tag, extensions, close("location")).void()`. -/
def location : PParser Unit :=
  pMap (fun _ => ())
    (pThen (openD ("location"))
      (pThen extensions
        (pLeft (pLeft href_tag extensions) (closeD ("location")))))

/-- The `alt` of child parsers inside `propstat` from `src/xml.rs`. -/
def propstatChild : PParser PropstatChild :=
  pAlt (pMap PropstatChild.isCollection prop_tag)
    (pAlt (pMap PropstatChild.status status_tag)
      (pMap (fun _ => PropstatChild.discard) responsedescription))

/-- The post-`seq!` loop of `propstat` from `src/xml.rs`: fold the parsed
children, rejecting (hard-failing) a duplicate `prop` or `status` via the
`Option::replace(..).is_some()` checks, and finally requiring both to be
present (`is_collection.zip(status)`). -/
def propstatFold :
    List PropstatChild → Option Bool → Option String → Option Propstat
  | [], is_collection, status =>
    match is_collection, status with
    | some c, some st => some ⟨some c, st⟩
    | _, _ => none
  | PropstatChild.isCollection yesno :: rest, is_collection, status =>
    match is_collection with
    | some _ => none
    | none => propstatFold rest (some yesno) status
  | PropstatChild.status s :: rest, is_collection, status =>
    match status with
    | some _ => none
    | none => propstatFold rest is_collection (some s)
  | PropstatChild.discard :: rest, is_collection, status =>
    propstatFold rest is_collection status

/-- The raw `seq!` part of `propstat` from `src/xml.rs`. -/
def propstatSeq : PParser (List PropstatChild) :=
  pLeft
    (pLeft
      (pThen (openD ("propstat")) (repeat0 (pThen extensions propstatChild)))
      extensions)
    (closeD ("propstat"))

/-- The `propstat` parser from `src/xml.rs`: the `seq!` over the children
followed by the duplicate/missing checks (hard failures). -/
def propstat : PParser Propstat := fun input =>
  match propstatSeq input with
  | PRes.ok children rest =>
    match propstatFold children none none with
    | some ps => PRes.ok ps rest
    | none => PRes.cut
  | PRes.back => PRes.back
  | PRes.cut => PRes.cut

/-- The `alt` of child parsers inside `response` from `src/xml.rs`. -/
def responseChild : PParser ResponseChild :=
  pAlt (pMap ResponseChild.href href_tag)
    (pAlt (pMap ResponseChild.propstat propstat)
      (pAlt (pMap (fun _ => ResponseChild.discard) responsedescription)
        (pMap (fun _ => ResponseChild.discard) location)))

/-- The post-`seq!` loop of `response` from `src/xml.rs`: a duplicate
`href` or a second propstat-carried `is_collection` is a hard failure; a
propstat whose `is_collection` is present also records its status; at the
end `href.zip(is_collection).zip(status)` must all be present. -/
def responseFold :
    List ResponseChild → Option String → Option Bool → Option String →
      Option Response
  | [], href, is_collection, status =>
    match href, is_collection, status with
    | some h, some c, some st => some ⟨h, c, st⟩
    | _, _, _ => none
  | ResponseChild.href v :: rest, href, i, s =>
    match href with
    | some _ => none
    | none => responseFold rest (some v) i s
  | ResponseChild.propstat ps :: rest, h, is_collection, status =>
    match ps.is_collection with
    | some yesno =>
      match is_collection with
      | some _ => none
      | none => responseFold rest h (some yesno) (some ps.status)
    | none => responseFold rest h is_collection status
  | ResponseChild.discard :: rest, h, i, s => responseFold rest h i s

/-- The raw `seq!` part of `response` from `src/xml.rs`. -/
def responseSeq : PParser (List ResponseChild) :=
  pLeft
    (pLeft
      (pThen (openD ("response")) (repeat0 (pThen extensions responseChild)))
      extensions)
    (closeD ("response"))

/-- The `response` parser from `src/xml.rs`. -/
def response : PParser Response := fun input =>
  match responseSeq input with
  | PRes.ok children rest =>
    match responseFold children none none none with
    | some r => PRes.ok r rest
    | none => PRes.cut
  | PRes.back => PRes.back
  | PRes.cut => PRes.cut

/-- One item of the top-level repetition in `parse` from `src/xml.rs`:
`alt((response.map(Some), responsedescription.map(|()| None)))`. -/
def multistatusItem : PParser (Option Response) :=
  pAlt (pMap some response)
    (pMap (fun _ => (none : Option Response)) responsedescription)

/-- The whole `seq!` of `parse` from `src/xml.rs`. -/
def multistatusSeq : PParser (List (Option Response)) :=
  pLeft
    (pLeft
      (pThen (openD ("multistatus")) (repeat0 (pThen extensions multistatusItem)))
      extensions)
    (closeD ("multistatus"))

/-- Character-level model of Rust's `char::is_ascii_whitespace`. -/
def isAsciiWhitespace (c : Char) : Bool :=
  c = ' ' || c = '\t' || c = '\n' || c = '\x0c' || c = '\r'

/-- Model of `str::split_ascii_whitespace`: the whitespace-separated
words, empty words skipped. -/
def splitWordsGo : List Char → List Char → List (List Char)
  | [], acc => if acc = [] then [] else [acc.reverse]
  | c :: rest, acc =>
    if isAsciiWhitespace c then
      if acc = [] then splitWordsGo rest []
      else acc.reverse :: splitWordsGo rest []
    else splitWordsGo rest (c :: acc)

/-- Does `p` occur at the start of `cs` (model of `str::starts_with`)? -/
def leadsWith : List Char → List Char → Bool
  | [], _ => true
  | _ :: _, [] => false
  | p :: ps, c :: cs => p = c && leadsWith ps cs

/-- The `is_ok` status check from `src/xml.rs`: the first
ASCII-whitespace-separated word must start with `HTTP/` and the second
word must equal `200`. -/
def is_ok (s : String) : Bool :=
  match splitWordsGo s.toList [] with
  | [] => false
  | ver :: rest =>
    leadsWith (("HTTP/").toList) ver &&
      (match rest with
       | [] => false
       | st :: _ => st = ("200").toList)

/-- The `DirectoryListing` type from `src/types.rs`. -/
structure DirectoryListing (τ : Type) : Type where
  directories : List τ
  files : List τ
deriving DecidableEq, Repr

/-- The `FromXmlError` type from `src/xml.rs` (the `Tokenize` variant
belongs to the external tokenizer stage and is out of scope here). -/
inductive FromXmlError : Type where
  | parseErr
  | badStatus (href : String) (status : String)
deriving DecidableEq, Repr

instance {ε α : Type} [DecidableEq ε] [DecidableEq α] : DecidableEq (Except ε α) :=
  fun a b =>
    match a, b with
    | Except.ok x, Except.ok y => decidable_of_iff (x = y) (by simp)
    | Except.error e, Except.error f => decidable_of_iff (e = f) (by simp)
    | Except.ok _, Except.error _ => isFalse (by simp)
    | Except.error _, Except.ok _ => isFalse (by simp)

/-- The loop at the end of `parse` in `src/xml.rs`: walk the responses in
order, fail with `BadStatus` at the first response whose status is not
OK, and otherwise route each href to `directories` or `files`. -/
def buildListing : List Response → Except FromXmlError (DirectoryListing String)
  | [] => Except.ok ⟨[], []⟩
  | r :: rs =>
    if is_ok r.status then
      match buildListing rs with
      | Except.ok dl =>
        if r.is_collection then Except.ok ⟨r.href :: dl.directories, dl.files⟩
        else Except.ok ⟨dl.directories, r.href :: dl.files⟩
      | Except.error e => Except.error e
    else Except.error (FromXmlError.badStatus r.href r.status)

/-- The `parse` function from `src/xml.rs`: run the `multistatus`
grammar over the whole token stream (any leftover input or parse failure
is `FromXmlError::Parse`) and then post-process the responses. -/
def parse (tokens : List Token) : Except FromXmlError (DirectoryListing String) :=
  match runParse multistatusSeq tokens with
  | none => Except.error FromXmlError.parseErr
  | some responses => buildListing (responses.filterMap id)

/-! Embedding of the `Client::list_directory` post-processing from
`src/client.rs` and `src/types.rs`.  URLs are modelled as strings; the
external `url` crate's join operation is abstracted as a parameter. -/

/-- Character-list model of `str::trim_end_matches('/')`. -/
def trimEndSlashesL (cs : List Char) : List Char :=
  (cs.reverse.dropWhile (fun c => c = '/')).reverse

/-- Model of `str::trim_end_matches('/')` on strings. -/
def trimEndSlashes (s : String) : String :=
  String.mk (trimEndSlashesL s.data)

/-- The `is_collection_url` helper from `src/client.rs`: equality of the
two URLs after stripping all trailing slashes. -/
def is_collection_url (colurl url : String) : Bool :=
  trimEndSlashes colurl = trimEndSlashes url

/-- The `DirectoryListing::paths_to_urls` method from `src/types.rs`,
with the `url.join(path)` operation of the external `url` crate passed in
as `join`. -/
def paths_to_urls (join : String → String → String) (base_url : String)
    (dl : DirectoryListing String) : DirectoryListing String :=
  ⟨dl.directories.map (fun p => join base_url p),
   dl.files.map (fun p => join base_url p)⟩

/-- Model of reqwest's `Response::error_for_status`, called by
`Client::list_directory` and built with `redirect::Policy::none()`
(`Client::new`): the response is turned into an error exactly for client
errors (4xx) and server errors (5xx).  Informational and redirect
statuses pass through unchanged; with redirects disabled a 3xx response
is returned to the caller as-is. -/
def error_for_status (status : Nat) : Bool :=
  decide (400 ≤ status) && decide (status ≤ 599)

/-- Errors of the `list_directory` model. -/
inductive LDError : Type where
  | httpStatus (status : Nat)
  | xml (e : FromXmlError)
deriving DecidableEq, Repr

/-- Model of `Client::list_directory` from `src/client.rs`, from the
point the response status is available: `error_for_status`, then
`parse_multistatus` on the body (modelled at the token level), then
`paths_to_urls(&self.base_url)`, then
`dl.directories.retain(|u| !is_collection_url(&url, u))`. -/
def list_directory (join : String → String → String) (base_url url : String)
    (status : Nat) (body : List Token) :
    Except LDError (DirectoryListing String) :=
  if error_for_status status then Except.error (LDError.httpStatus status)
  else
    match parse body with
    | Except.error e => Except.error (LDError.xml e)
    | Except.ok dl0 =>
      let dl := paths_to_urls join base_url dl0
      Except.ok
        ⟨dl.directories.filter (fun u => !is_collection_url url u), dl.files⟩

/-! Embedding of the bounded tree nursery from `src/btn.rs`.

The task lifecycle (`Spawner::spawn_with_self`) is embedded as a
transition system: a spawned task first awaits
`semaphore.acquire()` and only then runs `func(self)`, holding the RAII
permit `_permit` until the body finishes (or the task is aborted), at
which point the permit returns to the pool.  States count available
permits and tasks in each lifecycle stage. -/

/-- Counting abstraction of the nursery: available semaphore permits and
the number of tasks in each stage of `spawn_with_self`'s async block. -/
structure SemState : Type where
  permits : Nat
  waiting : Nat
  running : Nat
  done : Nat
deriving DecidableEq, Repr

/-- One scheduler step of the nursery's task lifecycle:
`spawn` enqueues a new task (`Spawner::spawn`, before the permit);
`acquire` lets a waiting task obtain a permit when one is available
(`semaphore.acquire().await`); `finish` completes a running body,
dropping `_permit` back into the pool; aborting a waiting task never
takes a permit, and aborting a running task releases its permit (RAII
drop). -/
inductive NStep : SemState → SemState → Prop where
  | spawn (p w r d : Nat) : NStep ⟨p, w, r, d⟩ ⟨p, w + 1, r, d⟩
  | acquire (p w r d : Nat) : NStep ⟨p + 1, w + 1, r, d⟩ ⟨p, w, r + 1, d⟩
  | finish (p w r d : Nat) : NStep ⟨p, w, r + 1, d⟩ ⟨p + 1, w, r, d + 1⟩
  | abortWaiting (p w r d : Nat) : NStep ⟨p, w + 1, r, d⟩ ⟨p, w, r, d⟩
  | abortRunning (p w r d : Nat) : NStep ⟨p, w, r + 1, d⟩ ⟨p + 1, w, r, d⟩

/-- Initial nursery state (`BoundedTreeNursery::new`): a semaphore with
`limit` permits and the root task freshly spawned. -/
def initState (limit : Nat) : SemState := ⟨limit, 1, 0, 0⟩

/-- States the nursery can reach from construction. -/
def reachable (limit : Nat) (s : SemState) : Prop :=
  Relation.ReflTransGen NStep (initState limit) s

/-! Model of `BoundedTreeNursery::poll_next` from `src/btn.rs`. -/

/-- Result of a task recorded in the join set: its value, or a panic. -/
inductive TaskRes (τ : Type) : Type where
  | value (t : τ)
  | panicked
deriving DecidableEq, Repr

/-- Outcome of `receiver.poll_recv_many(cx, &mut buf, 32)`:
`Poll::Pending`, `Poll::Ready(0)` (the channel is closed — every
`Spawner` clone, hence every sender, has been dropped — and drained), or
`Poll::Ready(n)` delivering `n > 0` freshly spawned task handles. -/
inductive RecvPoll (τ : Type) : Type where
  | pending
  | closedNow
  | items (hs : List (TaskRes τ))

/-- Outcome of `tasks.poll_join_next(cx)`: `Poll::Pending` (tasks are
live but none has completed), `Poll::Ready(Some(r))` (a task completed
with `r`), or `Poll::Ready(None)` (the join set is empty). -/
inductive JoinPoll (τ : Type) : Type where
  | pending
  | ready (r : TaskRes τ)
  | emptySet

/-- Observable outcome of one `poll_next` call: an item is yielded, a
panic is resumed, `Poll::Pending` ("not yet"), or `Poll::Ready(None)`
("end of sequence"). -/
inductive PollOut (τ : Type) : Type where
  | yielded (t : τ)
  | panicOut
  | notYet
  | ended
deriving DecidableEq, Repr

/-- The join set after the drain phase of `poll_next`: handles delivered
by `poll_recv_many` are spawned onto the join set. -/
def drainTasks {τ : Type} (tasks : List (TaskRes τ)) (recv : RecvPoll τ) :
    List (TaskRes τ) :=
  match recv with
  | RecvPoll.items hs => tasks ++ hs
  | _ => tasks

/-- The `closed` flag after the drain phase: `Poll::Ready(0)` sets it. -/
def closedAfter {τ : Type} (closed : Bool) (recv : RecvPoll τ) : Bool :=
  match recv with
  | RecvPoll.closedNow => true
  | _ => closed

/-- Model of `poll_next` from `src/btn.rs`, given the outcome of the two
sub-polls: after the drain phase, `ready!(self.tasks.poll_join_next(cx))`
yields a completed task's value (resuming a panic if it panicked), and on
`Ready(None)` the stream ends iff `closed` has been observed. -/
def poll_next {τ : Type} (closed : Bool) (recv : RecvPoll τ) (jp : JoinPoll τ) :
    PollOut τ :=
  match jp with
  | JoinPoll.ready (TaskRes.value r) => PollOut.yielded r
  | JoinPoll.ready TaskRes.panicked => PollOut.panicOut
  | JoinPoll.emptySet =>
    if closedAfter closed recv then PollOut.ended else PollOut.notYet
  | JoinPoll.pending => PollOut.notYet

/-- Consistency of the channel poll outcome: `Poll::Ready(n)` with `n > 0`
delivers at least one handle. -/
def recvConsistent {τ : Type} (recv : RecvPoll τ) : Prop :=
  match recv with
  | RecvPoll.items hs => hs ≠ []
  | _ => True

/-- Consistency of `poll_join_next` with the join set it is polled on
(tokio's contract): `Ready(None)` iff the set is empty; `Pending` only
when tasks remain; a completed result belongs to the set. -/
def joinConsistent {τ : Type} (tasks : List (TaskRes τ)) (jp : JoinPoll τ) :
    Prop :=
  match jp with
  | JoinPoll.emptySet => tasks = []
  | JoinPoll.pending => tasks ≠ []
  | JoinPoll.ready r => r ∈ tasks

/-! Abstract descriptions of multistatus documents and their token
renderings, used to quantify over whole families of inputs of the
grammar of `src/xml.rs` §`parse`. -/

/-- Is a token list a well-nested block of extension tokens?  Running
stack discipline: extension opens push, extension closes must match the
top of the stack, text is allowed only at positive depth, standard
(`DAV:`) tokens never, and the block must end with an empty stack. -/
def balGo : List (String × String) → List Token → Bool
  | stack, [] => stack = []
  | stack, t :: rest =>
    match t with
    | Token.openExt n ns => balGo ((n, ns) :: stack) rest
    | Token.closeExt n ns =>
      match stack with
      | [] => false
      | top :: stack2 => top = (n, ns) && balGo stack2 rest
    | Token.text _ =>
      match stack with
      | [] => false
      | _ :: _ => balGo stack rest
    | _ => false

/-- A fully balanced extension block. -/
def balancedExt (ts : List Token) : Bool := balGo [] ts

/-- Abstract child of a `propstat` element. -/
inductive PChild : Type where
  | propC (is_collection : Bool)
  | statusC (s : String)
  | rdescC (s : String)
  | extC (b : List Token)
deriving DecidableEq, Repr

/-- Abstract child of a `response` element. -/
inductive RChild : Type where
  | hrefC (s : String)
  | propstatC (children : List PChild)
  | rdescC (s : String)
  | locationC (s : String)
  | extC (b : List Token)
deriving DecidableEq, Repr

/-- Abstract child of the top-level `multistatus` element. -/
inductive DocItem : Type where
  | respC (children : List RChild)
  | rdescC (s : String)
  | extC (b : List Token)
deriving DecidableEq, Repr

/-- Concatenated rendering of a list of abstract children. -/
def renderAll {χ : Type} (render : χ → List Token) : List χ → List Token
  | [] => []
  | c :: cs => render c ++ renderAll render cs

/-- Token rendering of a `propstat` child. -/
def renderPChild : PChild → List Token
  | PChild.propC true =>
    [Token.openDav ("prop"), Token.openDav ("resourcetype"),
     Token.openDav ("collection"), Token.closeDav ("collection"),
     Token.closeDav ("resourcetype"), Token.closeDav ("prop")]
  | PChild.propC false =>
    [Token.openDav ("prop"), Token.openDav ("resourcetype"),
     Token.closeDav ("resourcetype"), Token.closeDav ("prop")]
  | PChild.statusC s =>
    [Token.openDav ("status"), Token.text s, Token.closeDav ("status")]
  | PChild.rdescC s =>
    [Token.openDav ("responsedescription"), Token.text s,
     Token.closeDav ("responsedescription")]
  | PChild.extC b => b

/-- Token rendering of a `response` child. -/
def renderRChild : RChild → List Token
  | RChild.hrefC s =>
    [Token.openDav ("href"), Token.text s, Token.closeDav ("href")]
  | RChild.propstatC children =>
    Token.openDav ("propstat") :: renderAll renderPChild children ++
      [Token.closeDav ("propstat")]
  | RChild.rdescC s =>
    [Token.openDav ("responsedescription"), Token.text s,
     Token.closeDav ("responsedescription")]
  | RChild.locationC s =>
    [Token.openDav ("location"), Token.openDav ("href"), Token.text s,
     Token.closeDav ("href"), Token.closeDav ("location")]
  | RChild.extC b => b

/-- Token rendering of a `multistatus` child. -/
def renderItem : DocItem → List Token
  | DocItem.respC children =>
    Token.openDav ("response") :: renderAll renderRChild children ++
      [Token.closeDav ("response")]
  | DocItem.rdescC s =>
    [Token.openDav ("responsedescription"), Token.text s,
     Token.closeDav ("responsedescription")]
  | DocItem.extC b => b

/-- Token rendering of a whole multistatus document description. -/
def renderDoc (d : List DocItem) : List Token :=
  Token.openDav ("multistatus") :: renderAll renderItem d ++
    [Token.closeDav ("multistatus")]

/-- Well-formedness of a `propstat` child: extension blocks must be
balanced. -/
def wfPChild : PChild → Bool
  | PChild.extC b => balancedExt b
  | _ => true

/-- Well-formedness of a `response` child. -/
def wfRChild : RChild → Bool
  | RChild.extC b => balancedExt b
  | RChild.propstatC children => children.all wfPChild
  | _ => true

/-- Well-formedness of a `multistatus` child. -/
def wfItem : DocItem → Bool
  | DocItem.extC b => balancedExt b
  | DocItem.respC children => children.all wfRChild
  | _ => true

/-- Well-formedness of a document description. -/
def wfDoc (d : List DocItem) : Bool := d.all wfItem

/-- Outcome of parsing one abstract child inside a `repeat`: a value, an
ignored extension block, or a committed parse failure. -/
inductive COut (τ : Type) : Type where
  | val (x : τ)
  | skip
  | cutC
deriving DecidableEq, Repr

/-- The value carried by a `COut`, if any. -/
def cOutValue {τ : Type} : COut τ → Option τ
  | COut.val x => some x
  | _ => none

/-- Is this child an ignored extension block? -/
def isSkip {χ τ : Type} (out : χ → COut τ) (c : χ) : Bool :=
  match out c with
  | COut.skip => true
  | _ => false

/-- Are all children in the list ignored extension blocks? -/
def allSkip {χ τ : Type} (out : χ → COut τ) (cs : List χ) : Bool :=
  cs.all (isSkip out)

/-- The maximal suffix of the children that consists of ignored extension
blocks: the part left unconsumed by the child `repeat` and swallowed by
the final `extensions` before the closing tag. -/
def extSuffix {χ τ : Type} (out : χ → COut τ) : List χ → List χ
  | [] => []
  | c :: cs => if allSkip out (c :: cs) then c :: cs else extSuffix out cs

/-- Collected values of the children: `none` as soon as one child commits
a parse failure, otherwise the values of the non-extension children in
order. -/
def outsAll {χ τ : Type} (out : χ → COut τ) : List χ → Option (List τ)
  | [] => some []
  | c :: cs =>
    match out c with
    | COut.cutC => none
    | COut.skip => outsAll out cs
    | COut.val x => (outsAll out cs).map (fun xs => x :: xs)

/-- Result of the child `repeat` on a rendered children list followed by
a closing tag: a committed failure if some child fails, otherwise the
children's values, leaving the trailing extension blocks and the closing
tag unconsumed. -/
def repResult {χ τ : Type} (render : χ → List Token) (out : χ → COut τ)
    (closeTok : Token) (cs : List χ) (rest : List Token) : PRes (List τ) :=
  match outsAll out cs with
  | none => PRes.cut
  | some vs =>
    PRes.ok vs (renderAll render (extSuffix out cs) ++ closeTok :: rest)

/-- Parse outcome of one abstract `propstat` child (total: every
well-formed `propstat` child parses). -/
def psOut : PChild → COut PropstatChild
  | PChild.propC b => COut.val (PropstatChild.isCollection b)
  | PChild.statusC s => COut.val (PropstatChild.status s)
  | PChild.rdescC _ => COut.val PropstatChild.discard
  | PChild.extC _ => COut.skip

/-- Semantic value of an abstract `propstat` element: its children's
values folded by the duplicate/missing checks. -/
def psSem (children : List PChild) : Option Propstat :=
  (outsAll psOut children).bind (fun l => propstatFold l none none)

/-- Parse outcome of one abstract `response` child; a `propstat` child
whose fold rejects it is a committed failure. -/
def respOut : RChild → COut ResponseChild
  | RChild.hrefC s => COut.val (ResponseChild.href s)
  | RChild.propstatC children =>
    match psSem children with
    | some ps => COut.val (ResponseChild.propstat ps)
    | none => COut.cutC
  | RChild.rdescC _ => COut.val ResponseChild.discard
  | RChild.locationC _ => COut.val ResponseChild.discard
  | RChild.extC _ => COut.skip

/-- Semantic value of an abstract `response` element. -/
def respSem (children : List RChild) : Option Response :=
  (outsAll respOut children).bind (fun l => responseFold l none none none)

/-- Parse outcome of one abstract `multistatus` child. -/
def docOut : DocItem → COut (Option Response)
  | DocItem.respC children =>
    match respSem children with
    | some r => COut.val (some r)
    | none => COut.cutC
  | DocItem.rdescC _ => COut.val none
  | DocItem.extC _ => COut.skip

/-- Semantic value of an abstract multistatus document: what `parse`
returns on its rendering. -/
def docSem (d : List DocItem) : Except FromXmlError (DirectoryListing String) :=
  match outsAll docOut d with
  | none => Except.error FromXmlError.parseErr
  | some rs => buildListing (rs.filterMap id)

/-- Generic exactly-one extractor underlying the duplicate/missing
checks of both `response` and `propstat`: scan the children, recording
the first hit for each of two disjoint extractors and failing on a second
hit or on a missing one. -/
def uniq2Go {χ α β : Type} (f : χ → Option α) (g : χ → Option β) :
    List χ → Option α → Option β → Option (α × β)
  | [], a?, b? =>
    match a?, b? with
    | some a, some b => some (a, b)
    | _, _ => none
  | c :: cs, a?, b? =>
    match f c with
    | some a =>
      match a? with
      | some _ => none
      | none => uniq2Go f g cs (some a) b?
    | none =>
      match g c with
      | some b =>
        match b? with
        | some _ => none
        | none => uniq2Go f g cs a? (some b)
      | none => uniq2Go f g cs a? b?

/-- Is this token a `Text` token? -/
def isTextTok : Token → Bool
  | Token.text _ => true
  | _ => false

/-- The content of a `Text` token (empty for other tokens). -/
def textOf : Token → String
  | Token.text s => s
  | _ => ""

/-- The pair of the sole elements of two singleton lists; `none` unless
both lists have exactly one element.  This is what the "exactly one of
each" duplicate/missing checks of `response` and `propstat` compute. -/
def exactlyOne2 {α β : Type} (xs : List α) (ys : List β) : Option (α × β) :=
  match xs, ys with
  | [a], [b] => some (a, b)
  | _, _ => none

/-- Extractor for `href` values among response children. -/
def hrefOf : ResponseChild → Option String
  | ResponseChild.href s => some s
  | _ => none

/-- Extractor for the `(is_collection, status)` pair carried by a
propstat response child whose `is_collection` is present. -/
def psPairOf : ResponseChild → Option (Bool × String)
  | ResponseChild.propstat ps =>
    match ps.is_collection with
    | some b => some (b, ps.status)
    | none => none
  | _ => none

/-- Extractor for the `is_collection` value of a propstat child. -/
def collOf : PropstatChild → Option Bool
  | PropstatChild.isCollection b => some b
  | _ => none

/-- Extractor for the status value of a propstat child. -/
def statOf : PropstatChild → Option String
  | PropstatChild.status s => some s
  | _ => none

/-- Is this response child an `href` element? -/
def isHrefChild : RChild → Bool
  | RChild.hrefC _ => true
  | _ => false

/-- Is this response child a `propstat` element? -/
def isPropstatChild : RChild → Bool
  | RChild.propstatC _ => true
  | _ => false

/-- Is this propstat child a `prop` element? -/
def isPropChild : PChild → Bool
  | PChild.propC _ => true
  | _ => false

/-- Is this propstat child a `status` element? -/
def isStatusChild : PChild → Bool
  | PChild.statusC _ => true
  | _ => false

/-- Equivalence on abstract `response` children for claim C6: identical,
except that the children of a `propstat` may be permuted. -/
def childEquiv : RChild → RChild → Prop
  | RChild.propstatC a, RChild.propstatC b => a.Perm b
  | a, b => a = b

/-- Equivalence on abstract `response` elements: permute the sibling
children, each matched up to `childEquiv`. -/
def respEquiv (a b : List RChild) : Prop :=
  ∃ mid, List.Forall₂ childEquiv a mid ∧ mid.Perm b

/-- Equivalence on `multistatus` children. -/
def itemEquiv : DocItem → DocItem → Prop
  | DocItem.respC a, DocItem.respC b => respEquiv a b
  | a, b => a = b

/-- Equivalence on whole documents: each response's (and each nested
propstat's) sibling order may differ. -/
def docEquiv (d e : List DocItem) : Prop := List.Forall₂ itemEquiv d e

/-- Extension-erasure on `propstat` children. -/
def erasePs (children : List PChild) : List PChild :=
  children.filter (fun c =>
    match c with
    | PChild.extC _ => false
    | _ => true)

/-- Extension-erasure inside one `response` child. -/
def eraseRChild : RChild → RChild
  | RChild.propstatC children => RChild.propstatC (erasePs children)
  | c => c

/-- Extension-erasure on `response` children. -/
def eraseResp (children : List RChild) : List RChild :=
  (children.filter (fun c =>
    match c with
    | RChild.extC _ => false
    | _ => true)).map eraseRChild

/-- Extension-erasure inside one `multistatus` child. -/
def eraseItem : DocItem → DocItem
  | DocItem.respC children => DocItem.respC (eraseResp children)
  | c => c

/-- Extension-erasure on whole documents: drop every extension block at
every child position. -/
def eraseDoc (d : List DocItem) : List DocItem :=
  (d.filter (fun c =>
    match c with
    | DocItem.extC _ => false
    | _ => true)).map eraseItem

/-! Concrete sample inputs used by witnesses and counterexamples. -/

/-- A 200 status line. -/
def okStatus : String := "HTTP/1.1 200 OK"

/-- A valid multistatus token stream describing one non-collection
resource `/a`. -/
def fileDocTokens : List Token :=
  [Token.openDav ("multistatus"),
   Token.openDav ("response"),
   Token.openDav ("href"), Token.text ("/a"), Token.closeDav ("href"),
   Token.openDav ("propstat"),
   Token.openDav ("prop"),
   Token.openDav ("resourcetype"), Token.closeDav ("resourcetype"),
   Token.closeDav ("prop"),
   Token.openDav ("status"), Token.text okStatus, Token.closeDav ("status"),
   Token.closeDav ("propstat"),
   Token.closeDav ("response"),
   Token.closeDav ("multistatus")]

/-- An abstract description of a listing of `/d`: the collection itself,
a sub-collection and a file. -/
def listingDoc : List DocItem :=
  [DocItem.respC
    [RChild.hrefC ("/d/"),
     RChild.propstatC [PChild.propC true, PChild.statusC okStatus]],
   DocItem.respC
    [RChild.hrefC ("/d/sub/"),
     RChild.propstatC [PChild.propC true, PChild.statusC okStatus]],
   DocItem.respC
    [RChild.hrefC ("/d/f"),
     RChild.propstatC [PChild.propC false, PChild.statusC okStatus]]]

/-- A 404 status line. -/
def notFoundStatus : String := "HTTP/1.1 404 Not Found"

/-- An abstract document with well-nested extension blocks at the
`multistatus`, `response` and `propstat` child positions (including one
carrying text and one trailing before a closing tag). -/
def extDoc : List DocItem :=
  [DocItem.extC [Token.openExt ("a") ("urn:x"), Token.text ("hi"),
     Token.closeExt ("a") ("urn:x")],
   DocItem.respC
    [RChild.extC [Token.openExt ("b") ("urn:x"),
       Token.openExt ("c") ("urn:y"), Token.closeExt ("c") ("urn:y"),
       Token.closeExt ("b") ("urn:x")],
     RChild.hrefC ("/foo/bar/"),
     RChild.propstatC
      [PChild.extC [Token.openExt ("d") ("urn:x"),
         Token.closeExt ("d") ("urn:x")],
       PChild.propC true, PChild.statusC okStatus,
       PChild.extC [Token.openExt ("e") ("urn:x"), Token.text ("t"),
         Token.closeExt ("e") ("urn:x")]],
     RChild.extC [Token.openExt ("f") ("urn:z"),
       Token.closeExt ("f") ("urn:z")]]]

/-- An abstract document with one good response and one whose status is
404. -/
def badDoc : List DocItem :=
  [DocItem.respC
    [RChild.hrefC ("/a/"),
     RChild.propstatC [PChild.propC true, PChild.statusC okStatus]],
   DocItem.respC
    [RChild.hrefC ("/b"),
     RChild.propstatC [PChild.propC false, PChild.statusC notFoundStatus]]]

/-- An abstract document whose response lists `propstat` before `href`,
with `status` before `prop` inside the propstat. -/
def permDocA : List DocItem :=
  [DocItem.respC
    [RChild.propstatC [PChild.statusC okStatus, PChild.propC true],
     RChild.hrefC ("/x/")]]

/-- The same document with the canonical sibling order. -/
def permDocB : List DocItem :=
  [DocItem.respC
    [RChild.hrefC ("/x/"),
     RChild.propstatC [PChild.propC true, PChild.statusC okStatus]]]

/-- A valid one-collection document with an extension block inserted
between `<prop>` and `<resourcetype>` — a position where the grammar
expects a structural token but never calls `extensions`. -/
def extInPropTokens : List Token :=
  [Token.openDav ("multistatus"),
   Token.openDav ("response"),
   Token.openDav ("href"), Token.text ("/foo/bar/"), Token.closeDav ("href"),
   Token.openDav ("propstat"),
   Token.openDav ("prop"),
   Token.openExt ("annot") ("urn:x"), Token.closeExt ("annot") ("urn:x"),
   Token.openDav ("resourcetype"),
   Token.openDav ("collection"), Token.closeDav ("collection"),
   Token.closeDav ("resourcetype"),
   Token.closeDav ("prop"),
   Token.openDav ("status"), Token.text okStatus, Token.closeDav ("status"),
   Token.closeDav ("propstat"),
   Token.closeDav ("response"),
   Token.closeDav ("multistatus")]

/-- The same document without the extension block. -/
def plainPropTokens : List Token :=
  [Token.openDav ("multistatus"),
   Token.openDav ("response"),
   Token.openDav ("href"), Token.text ("/foo/bar/"), Token.closeDav ("href"),
   Token.openDav ("propstat"),
   Token.openDav ("prop"),
   Token.openDav ("resourcetype"),
   Token.openDav ("collection"), Token.closeDav ("collection"),
   Token.closeDav ("resourcetype"),
   Token.closeDav ("prop"),
   Token.openDav ("status"), Token.text okStatus, Token.closeDav ("status"),
   Token.closeDav ("propstat"),
   Token.closeDav ("response"),
   Token.closeDav ("multistatus")]

/-! # Theorems -/

theorem reachable_inv (limit : Nat) (s : SemState) (h : reachable limit s) :
    s.permits + s.running = limit := by
  induction h with
  | refl => rfl
  | tail _ step ih => cases step <;> simp_all <;> omega

/-- C1: for every workload and every `limit ≥ 1`, the number of tasks
concurrently executing their user-provided body never exceeds the limit:
in every reachable nursery state the running tasks and the free permits
partition the `limit` permits created by `BoundedTreeNursery::new`, so a
task runs its body only while holding a permit acquired beforehand and
released only when the body ends. -/
theorem claim1_nursery_bound (limit : Nat) (s : SemState)
    (hlim : 1 ≤ limit) (h : reachable limit s) :
    s.running ≤ limit ∧ s.permits + s.running = limit := by
  have inv := reachable_inv limit s h
  exact ⟨by omega, inv⟩

/-- Witness for C1 at `limit = 2` and the state reached by spawning a
second task and letting one task acquire a permit. -/
theorem claim1_nursery_bound_witness :
    SemState.running ⟨1, 1, 1, 0⟩ ≤ 2 ∧
      SemState.permits ⟨1, 1, 1, 0⟩ + SemState.running ⟨1, 1, 1, 0⟩ = 2 :=
  claim1_nursery_bound 2 ⟨1, 1, 1, 0⟩ (by decide)
    (Relation.ReflTransGen.tail
      (Relation.ReflTransGen.tail Relation.ReflTransGen.refl
        (NStep.spawn 2 1 0 0))
      (NStep.acquire 1 1 0 0))

/-- C3: `poll_next` signals end-of-sequence exactly when the `closed`
flag (set on observing the result channel closed, i.e. every `Spawner`
dropped) holds and the join set, after draining newly arrived handles,
is empty; otherwise (no panicked task present) a poll yields a value or
returns `Pending`. -/
theorem claim3_poll_next_end {τ : Type} (closed : Bool) (recv : RecvPoll τ)
    (tasks : List (TaskRes τ)) (jp : JoinPoll τ)
    (hr : recvConsistent recv) (hj : joinConsistent (drainTasks tasks recv) jp) :
    (poll_next closed recv jp = PollOut.ended ↔
      (closedAfter closed recv = true ∧ drainTasks tasks recv = [])) ∧
    ((∀ r ∈ drainTasks tasks recv, r ≠ TaskRes.panicked) →
      poll_next closed recv jp ≠ PollOut.ended →
      ((∃ t, poll_next closed recv jp = PollOut.yielded t) ∨
        poll_next closed recv jp = PollOut.notYet)) := by
  cases jp with
  | pending =>
    simp only [joinConsistent] at hj
    constructor
    · simp only [poll_next]
      constructor
      · intro h; cases h
      · rintro ⟨-, h⟩; exact absurd h hj
    · intro _ _; right; rfl
  | ready r =>
    simp only [joinConsistent] at hj
    have hne : drainTasks tasks recv ≠ [] := by
      intro h; rw [h] at hj; cases hj
    cases r with
    | value t =>
      constructor
      · simp only [poll_next]
        constructor
        · intro h; cases h
        · rintro ⟨-, h⟩; exact absurd h hne
      · intro _ _; left; exact ⟨t, rfl⟩
    | panicked =>
      constructor
      · simp only [poll_next]
        constructor
        · intro h; cases h
        · rintro ⟨-, h⟩; exact absurd h hne
      · intro hnp _; exact absurd rfl (hnp _ hj)
  | emptySet =>
    simp only [joinConsistent] at hj
    constructor
    · simp only [poll_next]
      cases hca : closedAfter closed recv with
      | true => simp [hj]
      | false => simp
    · intro _ hne
      cases hca : closedAfter closed recv with
      | true =>
        exfalso; apply hne
        simp [poll_next, hca]
      | false =>
        right; simp [poll_next, hca]

/-- Witness for C3: a drained, closed, empty nursery ends the stream. -/
theorem claim3_poll_next_end_witness :
    ((poll_next false (RecvPoll.closedNow : RecvPoll Nat) JoinPoll.emptySet =
        PollOut.ended ↔
      (closedAfter false (RecvPoll.closedNow : RecvPoll Nat) = true ∧
        drainTasks ([] : List (TaskRes Nat)) RecvPoll.closedNow = [])) ∧
    ((∀ r ∈ drainTasks ([] : List (TaskRes Nat)) RecvPoll.closedNow,
        r ≠ TaskRes.panicked) →
      poll_next false (RecvPoll.closedNow : RecvPoll Nat) JoinPoll.emptySet ≠
        PollOut.ended →
      ((∃ t, poll_next false (RecvPoll.closedNow : RecvPoll Nat)
          JoinPoll.emptySet = PollOut.yielded t) ∨
        poll_next false (RecvPoll.closedNow : RecvPoll Nat) JoinPoll.emptySet =
          PollOut.notYet))) :=
  @claim3_poll_next_end Nat false RecvPoll.closedNow [] JoinPoll.emptySet
    trivial rfl

/-- C2, counterexample: a 302 (non-2xx) response whose body is a valid
multistatus document does NOT make `list_directory` fail —
`error_for_status` only rejects 4xx/5xx, and with redirects disabled the
3xx response is processed like a success.  The claim that any non-2xx
status yields an error is therefore false. -/
theorem claim2_counterexample :
    (302 < 200 ∨ 300 ≤ 302) ∧
      list_directory (fun _ p => p) ("https://ex.org/") ("https://ex.org/d/")
        302 fileDocTokens = Except.ok ⟨[], [("/a")]⟩ := by
  constructor
  · right; decide
  · decide

/-- C2, amended: `list_directory` fails with an HTTP-status error exactly
for 4xx and 5xx responses; for any other status (1xx, 2xx, 3xx — in
particular redirects, which are not followed) the status itself is
irrelevant and the outcome is whatever parsing the body yields, the same
as for a 200 response. -/
theorem claim2_status_errors (join : String → String → String)
    (base_url url : String) (status : Nat) (body : List Token) :
    (400 ≤ status ∧ status ≤ 599 →
      list_directory join base_url url status body =
        Except.error (LDError.httpStatus status)) ∧
    (¬(400 ≤ status ∧ status ≤ 599) →
      list_directory join base_url url status body =
        list_directory join base_url url 200 body) := by
  constructor
  · intro h
    have : error_for_status status = true := by
      simp [error_for_status, h.1, h.2]
    simp [list_directory, this]
  · intro h
    have h1 : error_for_status status = false := by
      simp only [error_for_status, Bool.and_eq_true, decide_eq_true_eq] at *
      by_contra hc
      rcases Bool.ne_false_iff.mp hc with h2
      simp only [Bool.and_eq_true, decide_eq_true_eq] at h2
      exact h h2
    have h2 : error_for_status 200 = false := by decide
    simp [list_directory, h1, h2]

/-- Witness for C2 (amended): 404 fails with the status error; 302 is
handled exactly like 200. -/
theorem claim2_status_errors_witness :
    list_directory (fun _ p => p) ("b") ("u") 404 fileDocTokens =
      Except.error (LDError.httpStatus 404) ∧
    list_directory (fun _ p => p) ("b") ("u") 302 fileDocTokens =
      list_directory (fun _ p => p) ("b") ("u") 200 fileDocTokens :=
  ⟨(claim2_status_errors (fun _ p => p) ("b") ("u") 404 fileDocTokens).1
      (by omega),
   (claim2_status_errors (fun _ p => p) ("b") ("u") 302 fileDocTokens).2
      (by omega)⟩

/-- C8: a successful `list_directory` result is exactly the parser's
listing with every href joined onto the base URL; `directories` then has
every entry equal to the requested URL (after stripping trailing
slashes, which is what `is_collection_url` compares) removed, while
`files` is the joined parser output unchanged — no file entry is ever
removed. -/
theorem claim8_listing_postprocess (join : String → String → String)
    (base_url url : String) (status : Nat) (body : List Token)
    (dl : DirectoryListing String)
    (h : list_directory join base_url url status body = Except.ok dl) :
    ∃ dl0, parse body = Except.ok dl0 ∧
      dl.directories =
        (dl0.directories.map (fun p => join base_url p)).filter
          (fun u => !is_collection_url url u) ∧
      (∀ u, is_collection_url url u = true ↔
        trimEndSlashes url = trimEndSlashes u) ∧
      dl.files = dl0.files.map (fun p => join base_url p) ∧
      dl.files.length = dl0.files.length := by
  unfold list_directory at h
  by_cases hs : error_for_status status
  · simp [hs] at h
  · simp only [hs, if_false, Bool.false_eq_true] at h
    cases hp : parse body with
    | error e => rw [hp] at h; cases h
    | ok dl0 =>
      rw [hp] at h
      simp only [Except.ok.injEq] at h
      refine ⟨dl0, rfl, ?_, ?_, ?_, ?_⟩
      · rw [← h]; rfl
      · intro u; simp [is_collection_url]
      · rw [← h]; rfl
      · rw [← h]; simp [paths_to_urls]

/-- Witness for C8 on a listing of `/d` containing the collection
itself, a sub-collection and a file: the self-reference is removed from
`directories`, the file stays. -/
theorem claim8_listing_postprocess_witness :
    ∃ dl0, parse (renderDoc listingDoc) = Except.ok dl0 ∧
      (DirectoryListing.directories
          (⟨[("/d/sub/")], [("/d/f")]⟩ : DirectoryListing String)) =
        (dl0.directories.map (fun p => (fun _ q => q) ("b") p)).filter
          (fun u => !is_collection_url ("/d") u) ∧
      (∀ u, is_collection_url ("/d") u = true ↔
        trimEndSlashes ("/d") = trimEndSlashes u) ∧
      (DirectoryListing.files
          (⟨[("/d/sub/")], [("/d/f")]⟩ : DirectoryListing String)) =
        dl0.files.map (fun p => (fun _ q => q) ("b") p) ∧
      (DirectoryListing.files
          (⟨[("/d/sub/")], [("/d/f")]⟩ : DirectoryListing String)).length =
        dl0.files.length :=
  claim8_listing_postprocess (fun _ q => q) ("b") ("/d") 200
    (renderDoc listingDoc) ⟨[("/d/sub/")], [("/d/f")]⟩ (by decide)

/-! Structural lemmas about the embedded parsers. -/

theorem textGo_text (s : String) (rest : List Token) :
    textGo (Token.text s :: rest) = (s ++ (textGo rest).1, (textGo rest).2) := rfl

theorem textGo_stop (input : List Token)
    (h : ∀ s, input.head? ≠ some (Token.text s)) : textGo input = ("", input) := by
  match input with
  | [] => rfl
  | Token.text s :: rest => exact absurd rfl (h s)
  | Token.openDav n :: rest => rfl
  | Token.closeDav n :: rest => rfl
  | Token.openExt n ns :: rest => rfl
  | Token.closeExt n ns :: rest => rfl

theorem textGo_len (input : List Token) : (textGo input).2.length ≤ input.length := by
  induction input with
  | nil => simp [textGo]
  | cons t rest ih =>
    match t with
    | Token.text s => simpa [textGo_text] using Nat.le_succ_of_le ih
    | Token.openDav n => simp [textGo]
    | Token.closeDav n => simp [textGo]
    | Token.openExt n ns => simp [textGo]
    | Token.closeExt n ns => simp [textGo]

theorem lit_ok {t : Token} {i r : List Token} {u : Unit}
    (h : lit t i = PRes.ok u r) : i = t :: r := by
  match i with
  | [] => simp [lit] at h
  | c :: cs =>
    simp only [lit] at h
    by_cases hc : c = t
    · rw [if_pos hc] at h
      cases h
      rw [hc]
    · rw [if_neg hc] at h
      cases h

theorem lit_cons (t : Token) (rest : List Token) :
    lit t (t :: rest) = PRes.ok () rest := by simp [lit]

theorem lit_back {t c : Token} (rest : List Token) (h : c ≠ t) :
    lit t (c :: rest) = PRes.back := by simp [lit, h]

theorem pThen_ok {α β : Type} {p : PParser α} {q : PParser β}
    {i r : List Token} {b : β} (h : pThen p q i = PRes.ok b r) :
    ∃ a m, p i = PRes.ok a m ∧ q m = PRes.ok b r := by
  unfold pThen at h
  split at h
  next a m hp => exact ⟨a, m, hp, h⟩
  next hp => cases h
  next hp => cases h

theorem pLeft_ok {α β : Type} {p : PParser α} {q : PParser β}
    {i r : List Token} {a : α} (h : pLeft p q i = PRes.ok a r) :
    ∃ m b, p i = PRes.ok a m ∧ q m = PRes.ok b r := by
  unfold pLeft at h
  split at h
  next a0 m hp =>
    split at h
    next b r2 hq => cases h; exact ⟨m, b, hp, hq⟩
    next hq => cases h
    next hq => cases h
  next hp => cases h
  next hp => cases h

theorem pMap_ok {α β : Type} {f : α → β} {p : PParser α}
    {i r : List Token} {b : β} (h : pMap f p i = PRes.ok b r) :
    ∃ a, p i = PRes.ok a r ∧ b = f a := by
  unfold pMap at h
  split at h
  next a m hp => cases h; exact ⟨a, hp, rfl⟩
  next hp => cases h
  next hp => cases h

theorem pAlt_ok {α : Type} {p q : PParser α} {i r : List Token} {a : α}
    (h : pAlt p q i = PRes.ok a r) :
    p i = PRes.ok a r ∨ (p i = PRes.back ∧ q i = PRes.ok a r) := by
  unfold pAlt at h
  split at h
  next a0 m hp => cases h; exact Or.inl hp
  next hp => exact Or.inr ⟨hp, h⟩
  next hp => cases h

theorem pOpt_ok {α : Type} {p : PParser α} {i r : List Token} {o : Option α}
    (h : pOpt p i = PRes.ok o r) :
    (∃ a, p i = PRes.ok a r ∧ o = some a) ∨
      (p i = PRes.back ∧ o = none ∧ r = i) := by
  unfold pOpt at h
  split at h
  next a m hp => cases h; exact Or.inl ⟨a, hp, rfl⟩
  next hp => cases h; exact Or.inr ⟨hp, rfl, rfl⟩
  next hp => cases h

theorem text_ok {i r : List Token} {s : String}
    (h : text i = PRes.ok s r) : r.length ≤ i.length := by
  unfold text at h
  cases h
  exact textGo_len i

theorem extGo_len (i : List Token) :
    ∀ (stack : List (String × String)) (u : Unit) (r : List Token),
      extGo stack i = PRes.ok u r → r.length ≤ i.length := by
  induction i with
  | nil =>
    intro stack u r h
    simp only [extGo] at h
    cases h
    exact Nat.le_refl 0
  | cons t rest ih =>
    intro stack u r h
    match t with
    | Token.openExt n ns =>
      simp only [extGo] at h
      exact Nat.le_succ_of_le (ih _ _ _ h)
    | Token.closeExt n ns =>
      match stack with
      | [] => simp only [extGo] at h; cases h
      | top :: stack2 =>
        simp only [extGo] at h
        split at h
        next => exact Nat.le_succ_of_le (ih _ _ _ h)
        next => cases h
    | Token.text s =>
      simp only [extGo] at h
      match stack with
      | [] => cases h
      | top :: stack2 => exact Nat.le_succ_of_le (ih _ _ _ h)
    | Token.openDav n =>
      simp only [extGo] at h
      match stack with
      | [] => cases h; exact Nat.le_refl _
      | top :: stack2 => cases h
    | Token.closeDav n =>
      simp only [extGo] at h
      match stack with
      | [] => cases h; exact Nat.le_refl _
      | top :: stack2 => cases h

theorem extensions_len {i r : List Token} {u : Unit}
    (h : extensions i = PRes.ok u r) : r.length ≤ i.length :=
  extGo_len i [] u r h

theorem repeat0F_len {α : Type} (p : PParser α) :
    ∀ (fuel : Nat) (i : List Token) (xs : List α) (r : List Token),
      repeat0F p fuel i = PRes.ok xs r → r.length ≤ i.length := by
  intro fuel
  induction fuel with
  | zero => intro i xs r h; simp [repeat0F] at h
  | succ fuel ih =>
    intro i xs r h
    simp only [repeat0F] at h
    split at h
    next a rest hp =>
      split at h
      next hlen =>
        split at h
        next xs2 r2 hrec =>
          cases h
          exact Nat.le_trans (ih rest _ _ hrec) (Nat.le_of_lt hlen)
        next hrec => cases h
        next hrec => cases h
      next hlen => cases h
    next hp => cases h; exact Nat.le_refl _
    next hp => cases h

theorem repeat0_len {α : Type} {p : PParser α} {i : List Token} {xs : List α}
    {r : List Token} (h : repeat0 p i = PRes.ok xs r) : r.length ≤ i.length :=
  repeat0F_len p (i.length + 1) i xs r h

theorem balGo_extGo (b : List Token) :
    ∀ (δ st : List (String × String)) (rest : List Token),
      balGo δ b = true → extGo (δ ++ st) (b ++ rest) = extGo st rest := by
  induction b with
  | nil =>
    intro δ st rest h
    simp only [balGo, decide_eq_true_eq] at h
    subst h
    rfl
  | cons t b ih =>
    intro δ st rest h
    match t with
    | Token.openExt n ns =>
      simp only [balGo] at h
      simpa [extGo] using ih ((n, ns) :: δ) st rest h
    | Token.closeExt n ns =>
      match δ with
      | [] => simp [balGo] at h
      | top :: δ2 =>
        simp only [balGo, Bool.and_eq_true, decide_eq_true_eq] at h
        obtain ⟨htop, hb⟩ := h
        subst htop
        simpa [extGo] using ih δ2 st rest hb
    | Token.text s =>
      match δ with
      | [] => simp [balGo] at h
      | top :: δ2 =>
        simp only [balGo] at h
        simpa [extGo] using ih (top :: δ2) st rest h
    | Token.openDav n => simp [balGo] at h
    | Token.closeDav n => simp [balGo] at h

theorem extensions_skip {b : List Token} (z : List Token)
    (h : balancedExt b = true) : extensions (b ++ z) = extensions z := by
  have := balGo_extGo b [] [] z h
  simpa [extensions] using this

theorem extensions_openDav (n : String) (rest : List Token) :
    extensions (Token.openDav n :: rest) = PRes.ok () (Token.openDav n :: rest) := rfl

theorem extensions_closeDav (n : String) (rest : List Token) :
    extensions (Token.closeDav n :: rest) = PRes.ok () (Token.closeDav n :: rest) := rfl

theorem extensions_nil : extensions [] = PRes.ok () [] := rfl

theorem pThen_ext_openDav {β : Type} (q : PParser β) {input : List Token}
    (h : ∃ n, input.head? = some (Token.openDav n)) :
    pThen extensions q input = q input := by
  obtain ⟨n, hn⟩ := h
  match input with
  | [] => cases hn
  | t :: rest =>
    simp only [List.head?] at hn
    cases hn
    simp [pThen, extensions_openDav]

theorem pThen_ext_closeDav {β : Type} (q : PParser β) (n : String)
    (rest : List Token) :
    pThen extensions q (Token.closeDav n :: rest) = q (Token.closeDav n :: rest) := by
  simp [pThen, extensions_closeDav]

theorem pThen_ext_skip {β : Type} (q : PParser β) {b : List Token}
    (z : List Token) (h : balancedExt b = true) :
    pThen extensions q (b ++ z) = pThen extensions q z := by
  simp [pThen, extensions_skip z h]

/-! Strict-consumption lemmas for the concrete sub-parsers: a successful
parse always consumes at least the opening tag. -/

theorem delimited_lit_text_strict {t1 t2 : Token} {i r : List Token} {s : String}
    (h : delimited (lit t1) text (lit t2) i = PRes.ok s r) :
    r.length < i.length := by
  obtain ⟨m, b, h1, h2⟩ := pLeft_ok h
  obtain ⟨a, m2, h3, h4⟩ := pThen_ok h1
  have e1 := lit_ok h3
  have e2 := text_ok h4
  have e3 := lit_ok h2
  subst e1
  subst e3
  simp only [List.length_cons] at *
  omega

theorem href_tag_strict {i r : List Token} {s : String}
    (h : href_tag i = PRes.ok s r) : r.length < i.length :=
  delimited_lit_text_strict h

theorem status_tag_strict {i r : List Token} {s : String}
    (h : status_tag i = PRes.ok s r) : r.length < i.length :=
  delimited_lit_text_strict h

theorem responsedescription_strict {i r : List Token} {u : Unit}
    (h : responsedescription i = PRes.ok u r) : r.length < i.length := by
  obtain ⟨s, h1, -⟩ := pMap_ok h
  exact delimited_lit_text_strict h1

theorem prop_tag_strict {i r : List Token} {b : Bool}
    (h : prop_tag i = PRes.ok b r) : r.length < i.length := by
  obtain ⟨u1, m1, h1, h⟩ := pThen_ok h
  obtain ⟨u2, m2, h2, h⟩ := pThen_ok h
  obtain ⟨m3, u3, h3, h4⟩ := pLeft_ok h
  obtain ⟨m4, u4, h5, h6⟩ := pLeft_ok h3
  have e1 := lit_ok h1
  have e2 := lit_ok h2
  have e4 := lit_ok h4
  have e6 := lit_ok h6
  obtain ⟨o, h5m, -⟩ := pMap_ok h5
  obtain ⟨a, h7, ho⟩ | ⟨h7, ho, he⟩ := pOpt_ok h5m
  · obtain ⟨u5, m5, h8, h9⟩ := pThen_ok h7
    have e8 := lit_ok h8
    have e9 := lit_ok h9
    subst e1; subst e2; subst e4; subst e6; subst e8; subst e9
    simp only [List.length_cons] at *
    omega
  · subst he
    subst e1; subst e2; subst e4; subst e6
    simp only [List.length_cons] at *
    omega

theorem location_strict {i r : List Token} {u : Unit}
    (h : location i = PRes.ok u r) : r.length < i.length := by
  obtain ⟨u0, h1, -⟩ := pMap_ok h
  obtain ⟨u1, m1, h2, h3⟩ := pThen_ok h1
  obtain ⟨u2, m2, h4, h5⟩ := pThen_ok h3
  obtain ⟨m3, u3, h6, h7⟩ := pLeft_ok h5
  obtain ⟨m4, u4, h8, h9⟩ := pLeft_ok h6
  have e2 := lit_ok h2
  have e4 := extensions_len h4
  have e8 := href_tag_strict h8
  have e9 := extensions_len h9
  have e7 := lit_ok h7
  subst e2; subst e7
  simp only [List.length_cons] at *
  omega

theorem propstatSeq_ok {i r : List Token} {cs : List PropstatChild}
    (h : propstatSeq i = PRes.ok cs r) : r.length < i.length := by
  obtain ⟨m, u, h1, h2⟩ := pLeft_ok h
  obtain ⟨m2, u2, h3, h4⟩ := pLeft_ok h1
  obtain ⟨u3, m3, h5, h6⟩ := pThen_ok h3
  have e5 := lit_ok h5
  have e6 := repeat0_len h6
  have e4 := extensions_len h4
  have e2 := lit_ok h2
  subst e5; subst e2
  simp only [List.length_cons] at *
  omega

theorem propstat_ok {i r : List Token} {ps : Propstat}
    (h : propstat i = PRes.ok ps r) :
    ∃ cs, propstatSeq i = PRes.ok cs r ∧ propstatFold cs none none = some ps := by
  unfold propstat at h
  split at h
  next cs rest hp =>
    split at h
    next ps2 hf => cases h; exact ⟨cs, hp, hf⟩
    next hf => cases h
  next hp => cases h
  next hp => cases h

theorem propstat_strict {i r : List Token} {ps : Propstat}
    (h : propstat i = PRes.ok ps r) : r.length < i.length := by
  obtain ⟨cs, h1, -⟩ := propstat_ok h
  exact propstatSeq_ok h1

theorem responseSeq_ok {i r : List Token} {cs : List ResponseChild}
    (h : responseSeq i = PRes.ok cs r) : r.length < i.length := by
  obtain ⟨m, u, h1, h2⟩ := pLeft_ok h
  obtain ⟨m2, u2, h3, h4⟩ := pLeft_ok h1
  obtain ⟨u3, m3, h5, h6⟩ := pThen_ok h3
  have e5 := lit_ok h5
  have e6 := repeat0_len h6
  have e4 := extensions_len h4
  have e2 := lit_ok h2
  subst e5; subst e2
  simp only [List.length_cons] at *
  omega

theorem response_ok {i r : List Token} {rp : Response}
    (h : response i = PRes.ok rp r) :
    ∃ cs, responseSeq i = PRes.ok cs r ∧
      responseFold cs none none none = some rp := by
  unfold response at h
  split at h
  next cs rest hp =>
    split at h
    next rp2 hf => cases h; exact ⟨cs, hp, hf⟩
    next hf => cases h
  next hp => cases h
  next hp => cases h

theorem response_strict {i r : List Token} {rp : Response}
    (h : response i = PRes.ok rp r) : r.length < i.length := by
  obtain ⟨cs, h1, -⟩ := response_ok h
  exact responseSeq_ok h1

theorem propstatChild_strict {i r : List Token} {c : PropstatChild}
    (h : propstatChild i = PRes.ok c r) : r.length < i.length := by
  rcases pAlt_ok h with h1 | ⟨-, h1⟩
  · obtain ⟨b, hb, -⟩ := pMap_ok h1
    exact prop_tag_strict hb
  · rcases pAlt_ok h1 with h2 | ⟨-, h2⟩
    · obtain ⟨s, hs, -⟩ := pMap_ok h2
      exact status_tag_strict hs
    · obtain ⟨u, hu, -⟩ := pMap_ok h2
      exact responsedescription_strict hu

theorem responseChild_strict {i r : List Token} {c : ResponseChild}
    (h : responseChild i = PRes.ok c r) : r.length < i.length := by
  rcases pAlt_ok h with h1 | ⟨-, h1⟩
  · obtain ⟨s, hs, -⟩ := pMap_ok h1
    exact href_tag_strict hs
  · rcases pAlt_ok h1 with h2 | ⟨-, h2⟩
    · obtain ⟨ps, hp, -⟩ := pMap_ok h2
      exact propstat_strict hp
    · rcases pAlt_ok h2 with h3 | ⟨-, h3⟩
      · obtain ⟨u, hu, -⟩ := pMap_ok h3
        exact responsedescription_strict hu
      · obtain ⟨u, hu, -⟩ := pMap_ok h3
        exact location_strict hu

theorem multistatusItem_strict {i r : List Token} {o : Option Response}
    (h : multistatusItem i = PRes.ok o r) : r.length < i.length := by
  rcases pAlt_ok h with h1 | ⟨-, h1⟩
  · obtain ⟨rp, hr, -⟩ := pMap_ok h1
    exact response_strict hr
  · obtain ⟨u, hu, -⟩ := pMap_ok h1
    exact responsedescription_strict hu

/-! Block-parsing lemmas: each rendered child is consumed exactly, and
each child parser backtracks at a closing standard tag. -/

theorem propstatChild_prop (b : Bool) (rest : List Token) :
    propstatChild (renderPChild (PChild.propC b) ++ rest) =
      PRes.ok (PropstatChild.isCollection b) rest := by
  cases b <;>
    simp [renderPChild, propstatChild, pAlt, pMap, prop_tag, pThen, pLeft,
      pOpt, lit, openD, closeD]

theorem propstatChild_status (s : String) (rest : List Token) :
    propstatChild (renderPChild (PChild.statusC s) ++ rest) =
      PRes.ok (PropstatChild.status s) rest := by
  simp [renderPChild, propstatChild, pAlt, pMap, prop_tag, status_tag,
    delimited, pThen, pLeft, pOpt, lit, openD, closeD, text, textGo]

theorem propstatChild_rdesc (s : String) (rest : List Token) :
    propstatChild (renderPChild (PChild.rdescC s) ++ rest) =
      PRes.ok PropstatChild.discard rest := by
  simp [renderPChild, propstatChild, pAlt, pMap, prop_tag, status_tag,
    responsedescription, delimited, pThen, pLeft, pOpt, lit, openD, closeD,
    text, textGo]

theorem propstatChild_close (n : String) (rest : List Token) :
    propstatChild (Token.closeDav n :: rest) = PRes.back := by
  simp [propstatChild, pAlt, pMap, prop_tag, status_tag, responsedescription,
    delimited, pThen, pLeft, lit, openD]

theorem responseChild_href (s : String) (rest : List Token) :
    responseChild (renderRChild (RChild.hrefC s) ++ rest) =
      PRes.ok (ResponseChild.href s) rest := by
  simp [renderRChild, responseChild, pAlt, pMap, href_tag, delimited, pLeft,
    pThen, lit, openD, closeD, text, textGo]

theorem responseChild_rdesc (s : String) (rest : List Token) :
    responseChild (renderRChild (RChild.rdescC s) ++ rest) =
      PRes.ok ResponseChild.discard rest := by
  simp [renderRChild, responseChild, pAlt, pMap, href_tag, responsedescription,
    propstat, propstatSeq, delimited, pLeft, pThen, lit, openD, closeD, text,
    textGo]

theorem responseChild_location (s : String) (rest : List Token) :
    responseChild (renderRChild (RChild.locationC s) ++ rest) =
      PRes.ok ResponseChild.discard rest := by
  simp [renderRChild, responseChild, pAlt, pMap, href_tag, responsedescription,
    location, propstat, propstatSeq, extensions, extGo, delimited, pLeft,
    pThen, lit, openD, closeD, text, textGo]

theorem responseChild_close (n : String) (rest : List Token) :
    responseChild (Token.closeDav n :: rest) = PRes.back := by
  simp [responseChild, pAlt, pMap, href_tag, responsedescription, location,
    propstat, propstatSeq, delimited, pThen, pLeft, lit, openD]

theorem multistatusItem_rdesc (s : String) (rest : List Token) :
    multistatusItem (renderItem (DocItem.rdescC s) ++ rest) =
      PRes.ok (none : Option Response) rest := by
  simp [renderItem, multistatusItem, pAlt, pMap, response, responseSeq,
    responsedescription, delimited, pThen, pLeft, lit, openD, closeD, text,
    textGo]

theorem multistatusItem_close (n : String) (rest : List Token) :
    multistatusItem (Token.closeDav n :: rest) = PRes.back := by
  simp [multistatusItem, pAlt, pMap, response, responseSeq,
    responsedescription, delimited, pThen, pLeft, lit, openD]

/-! The characterization of `repeat(0.., preceded(extensions, child))`
over a rendered list of abstract children, generic in the child type:
used at all three levels of the grammar (`propstat`, `response`,
`multistatus`). -/

theorem head?_append_some {l z : List Token} {t : Token}
    (h : l.head? = some t) : (l ++ z).head? = some t := by
  match l with
  | [] => cases h
  | a :: l2 => simp only [List.head?] at h ⊢; exact h

theorem pThen_ext_strict {τ : Type} {childP : PParser τ}
    (Hstrict : ∀ i x r, childP i = PRes.ok x r → r.length < i.length)
    {i r : List Token} {x : τ} (h : pThen extensions childP i = PRes.ok x r) :
    r.length < i.length := by
  obtain ⟨u, m, h1, h2⟩ := pThen_ok h
  exact Nat.lt_of_lt_of_le (Hstrict m x r h2) (extensions_len h1)

theorem outsAll_allSkip {χ τ : Type} (out : χ → COut τ) (cs : List χ)
    (h : allSkip out cs = true) : outsAll out cs = some [] := by
  induction cs with
  | nil => rfl
  | cons c cs ih =>
    simp only [allSkip, List.all_cons, Bool.and_eq_true] at h
    obtain ⟨hc, hcs⟩ := h
    cases hout : out c with
    | skip => simp only [outsAll, hout]; exact ih hcs
    | val x => simp [isSkip, hout] at hc
    | cutC => simp [isSkip, hout] at hc

theorem repChildren_back_iff {χ τ : Type} (childP : PParser τ)
    (render : χ → List Token) (out : χ → COut τ) (closeTok : Token)
    (W : χ → Prop)
    (Hval : ∀ c x rest, W c → out c = COut.val x →
      childP (render c ++ rest) = PRes.ok x rest)
    (Hcut : ∀ c rest, W c → out c = COut.cutC →
      childP (render c ++ rest) = PRes.cut)
    (Hskip : ∀ c, W c → out c = COut.skip → balancedExt (render c) = true)
    (Hhead : ∀ c, out c ≠ COut.skip →
      ∃ n, (render c).head? = some (Token.openDav n))
    (Hclose : ∀ rest, childP (closeTok :: rest) = PRes.back)
    (HcloseDav : (∃ n, closeTok = Token.openDav n) ∨
      (∃ n, closeTok = Token.closeDav n)) :
    ∀ (cs : List χ) (rest : List Token),
      (∀ c ∈ cs, W c) →
      (pThen extensions childP (renderAll render cs ++ closeTok :: rest) =
          PRes.back ↔
        allSkip out cs = true) := by
  intro cs
  induction cs with
  | nil =>
    intro rest hwf
    have hext : extensions (closeTok :: rest) = PRes.ok () (closeTok :: rest) := by
      rcases HcloseDav with ⟨n, hn⟩ | ⟨n, hn⟩ <;> subst hn
      · exact extensions_openDav n rest
      · exact extensions_closeDav n rest
    simp only [renderAll, List.nil_append]
    constructor
    · intro _; rfl
    · intro _
      simp [pThen, hext, Hclose]
  | cons c cs ih =>
    intro rest hwf
    have hwf2 : ∀ x ∈ cs, W x :=
      fun x hx => hwf x (List.mem_cons_of_mem c hx)
    cases hout : out c with
    | skip =>
      have hbal := Hskip c (hwf c (List.mem_cons_self c cs)) hout
      have hskipeq :
          pThen extensions childP
              (renderAll render (c :: cs) ++ closeTok :: rest) =
            pThen extensions childP
              (renderAll render cs ++ closeTok :: rest) := by
        simp only [renderAll, List.append_assoc]
        exact pThen_ext_skip childP _ hbal
      rw [hskipeq, ih rest hwf2]
      simp [allSkip, isSkip, hout]
    | val x =>
      obtain ⟨n, hn⟩ := Hhead c (by simp [hout])
      have heq :
          pThen extensions childP
              (renderAll render (c :: cs) ++ closeTok :: rest) =
            PRes.ok x (renderAll render cs ++ closeTok :: rest) := by
        simp only [renderAll, List.append_assoc]
        rw [pThen_ext_openDav childP ⟨n, head?_append_some hn⟩]
        exact Hval c x _ (hwf c (List.mem_cons_self c cs)) hout
      rw [heq]
      simp [allSkip, isSkip, hout]
    | cutC =>
      obtain ⟨n, hn⟩ := Hhead c (by simp [hout])
      have heq :
          pThen extensions childP
              (renderAll render (c :: cs) ++ closeTok :: rest) = PRes.cut := by
        simp only [renderAll, List.append_assoc]
        rw [pThen_ext_openDav childP ⟨n, head?_append_some hn⟩]
        exact Hcut c _ (hwf c (List.mem_cons_self c cs)) hout
      rw [heq]
      simp [allSkip, isSkip, hout]

theorem repChildren_char {χ τ : Type} (childP : PParser τ)
    (render : χ → List Token) (out : χ → COut τ) (closeTok : Token)
    (W : χ → Prop)
    (Hval : ∀ c x rest, W c → out c = COut.val x →
      childP (render c ++ rest) = PRes.ok x rest)
    (Hcut : ∀ c rest, W c → out c = COut.cutC →
      childP (render c ++ rest) = PRes.cut)
    (Hskip : ∀ c, W c → out c = COut.skip → balancedExt (render c) = true)
    (Hhead : ∀ c, out c ≠ COut.skip →
      ∃ n, (render c).head? = some (Token.openDav n))
    (Hclose : ∀ rest, childP (closeTok :: rest) = PRes.back)
    (HcloseDav : (∃ n, closeTok = Token.openDav n) ∨
      (∃ n, closeTok = Token.closeDav n))
    (Hstrict : ∀ i x r, childP i = PRes.ok x r → r.length < i.length) :
    ∀ (cs : List χ) (rest : List Token) (fuel : Nat),
      (∀ c ∈ cs, W c) →
      (renderAll render cs ++ closeTok :: rest).length < fuel →
      repeat0F (pThen extensions childP) fuel
          (renderAll render cs ++ closeTok :: rest) =
        repResult render out closeTok cs rest := by
  intro cs
  induction cs with
  | nil =>
    intro rest fuel hwf hfuel
    match fuel with
    | 0 => exact absurd hfuel (Nat.not_lt_zero _)
    | f + 1 =>
      have hP : pThen extensions childP
          (renderAll render ([] : List χ) ++ closeTok :: rest) = PRes.back :=
        (repChildren_back_iff childP render out closeTok W Hval Hcut Hskip
          Hhead Hclose HcloseDav [] rest hwf).mpr rfl
      simp only [renderAll, List.nil_append] at hP ⊢
      simp only [repeat0F, hP]
      rfl
  | cons c cs ih =>
    intro rest fuel hwf hfuel
    match fuel with
    | 0 => exact absurd hfuel (Nat.not_lt_zero _)
    | f + 1 =>
      have hwf2 : ∀ x ∈ cs, W x :=
        fun x hx => hwf x (List.mem_cons_of_mem c hx)
      have hinput : renderAll render (c :: cs) ++ closeTok :: rest =
          render c ++ (renderAll render cs ++ closeTok :: rest) := by
        simp [renderAll, List.append_assoc]
      rw [hinput] at hfuel ⊢
      cases hout : out c with
      | val x =>
        have hchild := Hval c x (renderAll render cs ++ closeTok :: rest)
          (hwf c (List.mem_cons_self c cs)) hout
        obtain ⟨n, hn⟩ := Hhead c (by simp [hout])
        have hP : pThen extensions childP
            (render c ++ (renderAll render cs ++ closeTok :: rest)) =
              PRes.ok x (renderAll render cs ++ closeTok :: rest) := by
          rw [pThen_ext_openDav childP ⟨n, head?_append_some hn⟩]
          exact hchild
        have hZlt : (renderAll render cs ++ closeTok :: rest).length <
            (render c ++ (renderAll render cs ++ closeTok :: rest)).length :=
          Hstrict _ _ _ hchild
        have hfuel2 : (renderAll render cs ++ closeTok :: rest).length < f := by
          omega
        simp only [repeat0F, hP, if_pos hZlt]
        rw [ih rest f hwf2 hfuel2]
        have hsfx : extSuffix out (c :: cs) = extSuffix out cs := by
          simp [extSuffix, allSkip, isSkip, hout]
        cases houts : outsAll out cs with
        | none => simp [repResult, outsAll, hout, houts]
        | some vs => simp [repResult, outsAll, hout, houts, hsfx]
      | cutC =>
        have hchild := Hcut c (renderAll render cs ++ closeTok :: rest)
          (hwf c (List.mem_cons_self c cs)) hout
        obtain ⟨n, hn⟩ := Hhead c (by simp [hout])
        have hP : pThen extensions childP
            (render c ++ (renderAll render cs ++ closeTok :: rest)) =
              PRes.cut := by
          rw [pThen_ext_openDav childP ⟨n, head?_append_some hn⟩]
          exact hchild
        simp only [repeat0F, hP]
        simp [repResult, outsAll, hout]
      | skip =>
        have hbal := Hskip c (hwf c (List.mem_cons_self c cs)) hout
        have hPeq : pThen extensions childP
            (render c ++ (renderAll render cs ++ closeTok :: rest)) =
              pThen extensions childP (renderAll render cs ++ closeTok :: rest) :=
          pThen_ext_skip childP _ hbal
        by_cases hall : allSkip out cs = true
        · have hPback : pThen extensions childP
              (renderAll render cs ++ closeTok :: rest) = PRes.back :=
            (repChildren_back_iff childP render out closeTok W Hval Hcut Hskip
              Hhead Hclose HcloseDav cs rest hwf2).mpr hall
          have hallcc : allSkip out (c :: cs) = true := by
            simp [allSkip, isSkip, hout]
            simpa [allSkip] using hall
          have houts : outsAll out (c :: cs) = some [] :=
            outsAll_allSkip out (c :: cs) hallcc
          have hsfx : extSuffix out (c :: cs) = c :: cs := by
            simp [extSuffix, hallcc]
          simp only [repeat0F, hPeq, hPback, repResult, houts, hsfx, hinput]
        · have hfuelZ : (renderAll render cs ++ closeTok :: rest).length <
              f + 1 := by
            have := List.length_append (render c)
              (renderAll render cs ++ closeTok :: rest)
            omega
          have hIH := ih rest (f + 1) hwf2 hfuelZ
          cases hPz : pThen extensions childP
              (renderAll render cs ++ closeTok :: rest) with
          | back =>
            exact absurd
              ((repChildren_back_iff childP render out closeTok W Hval Hcut
                Hskip Hhead Hclose HcloseDav cs rest hwf2).mp hPz) hall
          | ok a R0 =>
            have hR0 : R0.length <
                (renderAll render cs ++ closeTok :: rest).length :=
              pThen_ext_strict Hstrict hPz
            have hR0big : R0.length <
                (render c ++ (renderAll render cs ++ closeTok :: rest)).length := by
              have := List.length_append (render c)
                (renderAll render cs ++ closeTok :: rest)
              omega
            have lhs : repeat0F (pThen extensions childP) (f + 1)
                (render c ++ (renderAll render cs ++ closeTok :: rest)) =
                (match repeat0F (pThen extensions childP) f R0 with
                 | PRes.ok xs r2 => PRes.ok (a :: xs) r2
                 | PRes.back => PRes.cut
                 | PRes.cut => PRes.cut) := by
              simp only [repeat0F, hPeq, hPz, if_pos hR0big]
            have rhs : repeat0F (pThen extensions childP) (f + 1)
                (renderAll render cs ++ closeTok :: rest) =
                (match repeat0F (pThen extensions childP) f R0 with
                 | PRes.ok xs r2 => PRes.ok (a :: xs) r2
                 | PRes.back => PRes.cut
                 | PRes.cut => PRes.cut) := by
              simp only [repeat0F, hPz, if_pos hR0]
            rw [lhs, ← rhs, hIH]
            have houts : outsAll out (c :: cs) = outsAll out cs := by
              simp [outsAll, hout]
            have hsfx : extSuffix out (c :: cs) = extSuffix out cs := by
              have hfalse : allSkip out (c :: cs) = false := by
                simp only [allSkip, List.all_cons, Bool.and_eq_false_iff]
                right
                exact Bool.eq_false_iff.mpr
                  (fun hh => hall (by simpa [allSkip] using hh))
              simp [extSuffix, hfalse]
            simp only [repResult, houts, hsfx]
          | cut =>
            have lhs : repeat0F (pThen extensions childP) (f + 1)
                (render c ++ (renderAll render cs ++ closeTok :: rest)) =
                PRes.cut := by
              simp only [repeat0F, hPeq, hPz]
            have rhs : repeat0F (pThen extensions childP) (f + 1)
                (renderAll render cs ++ closeTok :: rest) = PRes.cut := by
              simp only [repeat0F, hPz]
            rw [rhs] at hIH
            rw [lhs]
            have houts : outsAll out (c :: cs) = outsAll out cs := by
              simp [outsAll, hout]
            simp only [repResult, houts]
            cases houts2 : outsAll out cs with
            | none => rfl
            | some vs =>
              simp only [repResult, houts2] at hIH
              cases hIH

theorem extSuffix_allSkip {χ τ : Type} (out : χ → COut τ) (cs : List χ) :
    allSkip out (extSuffix out cs) = true := by
  induction cs with
  | nil => rfl
  | cons c cs ih =>
    by_cases h : allSkip out (c :: cs) = true
    · simp only [extSuffix, if_pos h]
      exact h
    · simp only [extSuffix, if_neg h]
      exact ih

theorem extSuffix_mem {χ τ : Type} (out : χ → COut τ) (cs : List χ) :
    ∀ c ∈ extSuffix out cs, c ∈ cs := by
  induction cs with
  | nil => intro c hc; simp [extSuffix] at hc
  | cons c0 cs ih =>
    intro c hc
    by_cases h : allSkip out (c0 :: cs) = true
    · simp only [extSuffix, if_pos h] at hc
      exact hc
    · simp only [extSuffix, if_neg h] at hc
      exact List.mem_cons_of_mem c0 (ih c hc)

theorem extensions_renderAll {χ : Type} (render : χ → List Token)
    (cs : List χ) (h : ∀ c ∈ cs, balancedExt (render c) = true)
    (z : List Token) : extensions (renderAll render cs ++ z) = extensions z := by
  induction cs with
  | nil => simp [renderAll]
  | cons c cs ih =>
    have hc := h c (List.mem_cons_self c cs)
    have hcs : ∀ x ∈ cs, balancedExt (render x) = true :=
      fun x hx => h x (List.mem_cons_of_mem c hx)
    calc extensions (renderAll render (c :: cs) ++ z)
        = extensions (render c ++ (renderAll render cs ++ z)) := by
          simp [renderAll, List.append_assoc]
      _ = extensions (renderAll render cs ++ z) := extensions_skip _ hc
      _ = extensions z := ih hcs

/-! Instantiation at the `propstat` level. -/

theorem psOut_Hval : ∀ (c : PChild) (x : PropstatChild) (rest : List Token),
    psOut c = COut.val x →
    propstatChild (renderPChild c ++ rest) = PRes.ok x rest := by
  intro c x rest h
  cases c with
  | propC b =>
    simp only [psOut, COut.val.injEq] at h
    subst h
    exact propstatChild_prop b rest
  | statusC s =>
    simp only [psOut, COut.val.injEq] at h
    subst h
    exact propstatChild_status s rest
  | rdescC s =>
    simp only [psOut, COut.val.injEq] at h
    subst h
    exact propstatChild_rdesc s rest
  | extC b => simp [psOut] at h

theorem psOut_Hcut : ∀ (c : PChild) (rest : List Token),
    psOut c = COut.cutC → propstatChild (renderPChild c ++ rest) = PRes.cut := by
  intro c rest h
  cases c <;> simp [psOut] at h

theorem psOut_Hhead : ∀ (c : PChild), psOut c ≠ COut.skip →
    ∃ n, (renderPChild c).head? = some (Token.openDav n) := by
  intro c h
  cases c with
  | propC b => cases b <;> exact ⟨("prop"), rfl⟩
  | statusC s => exact ⟨("status"), rfl⟩
  | rdescC s => exact ⟨("responsedescription"), rfl⟩
  | extC b => exact absurd rfl h

theorem psOut_Hskip : ∀ (c : PChild), wfPChild c = true →
    psOut c = COut.skip → balancedExt (renderPChild c) = true := by
  intro c hw hskip
  cases c with
  | extC b => simpa [wfPChild, renderPChild] using hw
  | propC b => simp [psOut] at hskip
  | statusC s => simp [psOut] at hskip
  | rdescC s => simp [psOut] at hskip

theorem propstatChildren_char (cs : List PChild) (rest : List Token)
    (hwf : ∀ c ∈ cs, wfPChild c = true) :
    repeat0 (pThen extensions propstatChild)
        (renderAll renderPChild cs ++ Token.closeDav ("propstat") :: rest) =
      repResult renderPChild psOut (Token.closeDav ("propstat")) cs rest := by
  unfold repeat0
  exact repChildren_char propstatChild renderPChild psOut
    (Token.closeDav ("propstat")) (fun c => wfPChild c = true)
    (fun c x rest2 _ h => psOut_Hval c x rest2 h)
    (fun c rest2 _ h => psOut_Hcut c rest2 h) psOut_Hskip psOut_Hhead
    (fun rest2 => propstatChild_close _ rest2) (Or.inr ⟨_, rfl⟩)
    (fun i x r h => propstatChild_strict h) cs rest
    ((renderAll renderPChild cs ++ Token.closeDav ("propstat") :: rest).length + 1)
    hwf (Nat.lt_succ_self _)

theorem psSkip_balanced {cs : List PChild} (hwf : cs.all wfPChild = true) :
    ∀ c ∈ extSuffix psOut cs, balancedExt (renderPChild c) = true := by
  intro c hc
  have hmem := extSuffix_mem psOut cs c hc
  have hskip := List.all_eq_true.mp (extSuffix_allSkip psOut cs) c hc
  simp only [isSkip] at hskip
  cases hout : psOut c with
  | skip => exact psOut_Hskip c (List.all_eq_true.mp hwf c hmem) hout
  | val x => rw [hout] at hskip; cases hskip
  | cutC => rw [hout] at hskip; cases hskip

theorem propstat_render (cs : List PChild) (rest : List Token)
    (hwf : cs.all wfPChild = true) :
    propstat (renderRChild (RChild.propstatC cs) ++ rest) =
      (match psSem cs with
       | some ps => PRes.ok ps rest
       | none => PRes.cut) := by
  have hinput : renderRChild (RChild.propstatC cs) ++ rest =
      Token.openDav ("propstat") ::
        (renderAll renderPChild cs ++ Token.closeDav ("propstat") :: rest) := by
    simp [renderRChild, List.append_assoc]
  rw [hinput]
  have hrep := propstatChildren_char cs rest (List.all_eq_true.mp hwf)
  unfold propstat propstatSeq
  simp only [pLeft, pThen, openD, closeD, lit_cons, hrep]
  cases houts : outsAll psOut cs with
  | none => simp [repResult, psSem, houts]
  | some vs =>
    have hext : extensions
        (renderAll renderPChild (extSuffix psOut cs) ++
          Token.closeDav ("propstat") :: rest) =
        PRes.ok () (Token.closeDav ("propstat") :: rest) := by
      rw [extensions_renderAll renderPChild (extSuffix psOut cs)
        (psSkip_balanced hwf) _]
      exact extensions_closeDav _ _
    simp only [repResult, houts, hext, lit_cons]
    simp [psSem, houts]

/-! Instantiation at the `response` level. -/

theorem responseChild_propstat (cs : List PChild) (rest : List Token)
    (hwf : cs.all wfPChild = true) :
    responseChild (renderRChild (RChild.propstatC cs) ++ rest) =
      (match psSem cs with
       | some ps => PRes.ok (ResponseChild.propstat ps) rest
       | none => PRes.cut) := by
  have hback : href_tag (renderRChild (RChild.propstatC cs) ++ rest) =
      PRes.back := by
    simp [renderRChild, href_tag, delimited, pLeft, pThen, lit, openD]
  unfold responseChild
  simp only [pAlt, pMap, hback]
  rw [propstat_render cs rest hwf]
  cases psSem cs <;> simp

theorem respOut_Hval : ∀ (c : RChild) (x : ResponseChild) (rest : List Token),
    wfRChild c = true → respOut c = COut.val x →
    responseChild (renderRChild c ++ rest) = PRes.ok x rest := by
  intro c x rest hw h
  cases c with
  | hrefC s =>
    simp only [respOut, COut.val.injEq] at h
    subst h
    exact responseChild_href s rest
  | propstatC cs =>
    have hwf : cs.all wfPChild = true := by simpa [wfRChild] using hw
    simp only [respOut] at h
    cases hps : psSem cs with
    | some ps =>
      rw [hps] at h
      simp only [COut.val.injEq] at h
      subst h
      rw [responseChild_propstat cs rest hwf, hps]
    | none => rw [hps] at h; cases h
  | rdescC s =>
    simp only [respOut, COut.val.injEq] at h
    subst h
    exact responseChild_rdesc s rest
  | locationC s =>
    simp only [respOut, COut.val.injEq] at h
    subst h
    exact responseChild_location s rest
  | extC b => simp [respOut] at h

theorem respOut_Hcut : ∀ (c : RChild) (rest : List Token),
    wfRChild c = true → respOut c = COut.cutC →
    responseChild (renderRChild c ++ rest) = PRes.cut := by
  intro c rest hw h
  cases c with
  | propstatC cs =>
    have hwf : cs.all wfPChild = true := by simpa [wfRChild] using hw
    simp only [respOut] at h
    cases hps : psSem cs with
    | some ps => rw [hps] at h; cases h
    | none => rw [responseChild_propstat cs rest hwf, hps]
  | hrefC s => simp [respOut] at h
  | rdescC s => simp [respOut] at h
  | locationC s => simp [respOut] at h
  | extC b => simp [respOut] at h

theorem respOut_Hskip : ∀ (c : RChild), wfRChild c = true →
    respOut c = COut.skip → balancedExt (renderRChild c) = true := by
  intro c hw hskip
  cases c with
  | extC b => simpa [wfRChild, renderRChild] using hw
  | hrefC s => simp [respOut] at hskip
  | propstatC cs =>
    simp only [respOut] at hskip
    cases hps : psSem cs with
    | some ps => rw [hps] at hskip; cases hskip
    | none => rw [hps] at hskip; cases hskip
  | rdescC s => simp [respOut] at hskip
  | locationC s => simp [respOut] at hskip

theorem respOut_Hhead : ∀ (c : RChild), respOut c ≠ COut.skip →
    ∃ n, (renderRChild c).head? = some (Token.openDav n) := by
  intro c h
  cases c with
  | hrefC s => exact ⟨("href"), rfl⟩
  | propstatC cs => exact ⟨("propstat"), rfl⟩
  | rdescC s => exact ⟨("responsedescription"), rfl⟩
  | locationC s => exact ⟨("location"), rfl⟩
  | extC b => exact absurd rfl h

theorem responseChildren_char (cs : List RChild) (rest : List Token)
    (hwf : ∀ c ∈ cs, wfRChild c = true) :
    repeat0 (pThen extensions responseChild)
        (renderAll renderRChild cs ++ Token.closeDav ("response") :: rest) =
      repResult renderRChild respOut (Token.closeDav ("response")) cs rest := by
  unfold repeat0
  exact repChildren_char responseChild renderRChild respOut
    (Token.closeDav ("response")) (fun c => wfRChild c = true)
    respOut_Hval respOut_Hcut respOut_Hskip respOut_Hhead
    (fun rest2 => responseChild_close _ rest2) (Or.inr ⟨_, rfl⟩)
    (fun i x r h => responseChild_strict h) cs rest
    ((renderAll renderRChild cs ++ Token.closeDav ("response") :: rest).length + 1)
    hwf (Nat.lt_succ_self _)

theorem respSkip_balanced {cs : List RChild} (hwf : cs.all wfRChild = true) :
    ∀ c ∈ extSuffix respOut cs, balancedExt (renderRChild c) = true := by
  intro c hc
  have hmem := extSuffix_mem respOut cs c hc
  have hskip := List.all_eq_true.mp (extSuffix_allSkip respOut cs) c hc
  simp only [isSkip] at hskip
  cases hout : respOut c with
  | skip => exact respOut_Hskip c (List.all_eq_true.mp hwf c hmem) hout
  | val x => rw [hout] at hskip; cases hskip
  | cutC => rw [hout] at hskip; cases hskip

theorem response_render (cs : List RChild) (rest : List Token)
    (hwf : cs.all wfRChild = true) :
    response (renderItem (DocItem.respC cs) ++ rest) =
      (match respSem cs with
       | some r => PRes.ok r rest
       | none => PRes.cut) := by
  have hinput : renderItem (DocItem.respC cs) ++ rest =
      Token.openDav ("response") ::
        (renderAll renderRChild cs ++ Token.closeDav ("response") :: rest) := by
    simp [renderItem, List.append_assoc]
  rw [hinput]
  have hrep := responseChildren_char cs rest (List.all_eq_true.mp hwf)
  unfold response responseSeq
  simp only [pLeft, pThen, openD, closeD, lit_cons, hrep]
  cases houts : outsAll respOut cs with
  | none => simp [repResult, respSem, houts]
  | some vs =>
    have hext : extensions
        (renderAll renderRChild (extSuffix respOut cs) ++
          Token.closeDav ("response") :: rest) =
        PRes.ok () (Token.closeDav ("response") :: rest) := by
      rw [extensions_renderAll renderRChild (extSuffix respOut cs)
        (respSkip_balanced hwf) _]
      exact extensions_closeDav _ _
    simp only [repResult, houts, hext, lit_cons]
    simp [respSem, houts]

/-! Instantiation at the `multistatus` level, and the main
characterization: `parse` on a rendered document computes `docSem`. -/

theorem multistatusItem_resp (cs : List RChild) (rest : List Token)
    (hwf : cs.all wfRChild = true) :
    multistatusItem (renderItem (DocItem.respC cs) ++ rest) =
      (match respSem cs with
       | some r => PRes.ok (some r) rest
       | none => PRes.cut) := by
  unfold multistatusItem
  simp only [pAlt, pMap]
  rw [response_render cs rest hwf]
  cases respSem cs <;> simp

theorem docOut_Hval : ∀ (c : DocItem) (x : Option Response) (rest : List Token),
    wfItem c = true → docOut c = COut.val x →
    multistatusItem (renderItem c ++ rest) = PRes.ok x rest := by
  intro c x rest hw h
  cases c with
  | respC cs =>
    have hwf : cs.all wfRChild = true := by simpa [wfItem] using hw
    simp only [docOut] at h
    cases hrs : respSem cs with
    | some r =>
      rw [hrs] at h
      simp only [COut.val.injEq] at h
      subst h
      rw [multistatusItem_resp cs rest hwf, hrs]
    | none => rw [hrs] at h; cases h
  | rdescC s =>
    simp only [docOut, COut.val.injEq] at h
    subst h
    exact multistatusItem_rdesc s rest
  | extC b => simp [docOut] at h

theorem docOut_Hcut : ∀ (c : DocItem) (rest : List Token),
    wfItem c = true → docOut c = COut.cutC →
    multistatusItem (renderItem c ++ rest) = PRes.cut := by
  intro c rest hw h
  cases c with
  | respC cs =>
    have hwf : cs.all wfRChild = true := by simpa [wfItem] using hw
    simp only [docOut] at h
    cases hrs : respSem cs with
    | some r => rw [hrs] at h; cases h
    | none => rw [multistatusItem_resp cs rest hwf, hrs]
  | rdescC s => simp [docOut] at h
  | extC b => simp [docOut] at h

theorem docOut_Hskip : ∀ (c : DocItem), wfItem c = true →
    docOut c = COut.skip → balancedExt (renderItem c) = true := by
  intro c hw hskip
  cases c with
  | extC b => simpa [wfItem, renderItem] using hw
  | respC cs =>
    simp only [docOut] at hskip
    cases hrs : respSem cs with
    | some r => rw [hrs] at hskip; cases hskip
    | none => rw [hrs] at hskip; cases hskip
  | rdescC s => simp [docOut] at hskip

theorem docOut_Hhead : ∀ (c : DocItem), docOut c ≠ COut.skip →
    ∃ n, (renderItem c).head? = some (Token.openDav n) := by
  intro c h
  cases c with
  | respC cs => exact ⟨("response"), rfl⟩
  | rdescC s => exact ⟨("responsedescription"), rfl⟩
  | extC b => exact absurd rfl h

theorem docChildren_char (d : List DocItem) (rest : List Token)
    (hwf : ∀ c ∈ d, wfItem c = true) :
    repeat0 (pThen extensions multistatusItem)
        (renderAll renderItem d ++ Token.closeDav ("multistatus") :: rest) =
      repResult renderItem docOut (Token.closeDav ("multistatus")) d rest := by
  unfold repeat0
  exact repChildren_char multistatusItem renderItem docOut
    (Token.closeDav ("multistatus")) (fun c => wfItem c = true)
    docOut_Hval docOut_Hcut docOut_Hskip docOut_Hhead
    (fun rest2 => multistatusItem_close _ rest2) (Or.inr ⟨_, rfl⟩)
    (fun i x r h => multistatusItem_strict h) d rest
    ((renderAll renderItem d ++ Token.closeDav ("multistatus") :: rest).length + 1)
    hwf (Nat.lt_succ_self _)

theorem docSkip_balanced {d : List DocItem} (hwf : wfDoc d = true) :
    ∀ c ∈ extSuffix docOut d, balancedExt (renderItem c) = true := by
  intro c hc
  have hmem := extSuffix_mem docOut d c hc
  have hskip := List.all_eq_true.mp (extSuffix_allSkip docOut d) c hc
  simp only [isSkip] at hskip
  cases hout : docOut c with
  | skip => exact docOut_Hskip c (List.all_eq_true.mp hwf c hmem) hout
  | val x => rw [hout] at hskip; cases hskip
  | cutC => rw [hout] at hskip; cases hskip

theorem parse_renderDoc (d : List DocItem) (hwf : wfDoc d = true) :
    parse (renderDoc d) = docSem d := by
  have hinput : renderDoc d =
      Token.openDav ("multistatus") ::
        (renderAll renderItem d ++ Token.closeDav ("multistatus") :: []) := by
    simp [renderDoc]
  have hrep := docChildren_char d [] (List.all_eq_true.mp hwf)
  unfold parse runParse multistatusSeq
  rw [hinput]
  simp only [pLeft, pThen, openD, closeD, lit_cons, hrep]
  cases houts : outsAll docOut d with
  | none => simp [repResult, docSem, houts]
  | some vs =>
    have hext : extensions
        (renderAll renderItem (extSuffix docOut d) ++
          Token.closeDav ("multistatus") :: []) =
        PRes.ok () (Token.closeDav ("multistatus") :: []) := by
      rw [extensions_renderAll renderItem (extSuffix docOut d)
        (docSkip_balanced hwf) _]
      exact extensions_closeDav _ _
    simp only [repResult, houts, hext, lit_cons]
    simp [docSem, houts]

/-! Characterization of the duplicate/missing-element folds of
`response` and `propstat` via the generic exactly-one extractor. -/

theorem uniq2Go_char {χ α β : Type} (f : χ → Option α) (g : χ → Option β)
    (hdisj : ∀ c, (f c).isSome → g c = none) :
    ∀ (l : List χ) (a? : Option α) (b? : Option β),
      uniq2Go f g l a? b? =
        exactlyOne2 (a?.toList ++ l.filterMap f) (b?.toList ++ l.filterMap g) := by
  intro l
  induction l with
  | nil =>
    intro a? b?
    cases a? <;> cases b? <;> rfl
  | cons c l ih =>
    intro a? b?
    cases hf : f c with
    | some a =>
      have hg : g c = none := hdisj c (by simp [hf])
      cases a? with
      | some a0 =>
        simp only [uniq2Go, hf]
        have : (some a0).toList ++ (c :: l).filterMap f =
            a0 :: a :: l.filterMap f := by
          simp [List.filterMap_cons, hf]
        rw [this]
        cases b? <;> rfl
      | none =>
        simp only [uniq2Go, hf]
        rw [ih (some a) b?]
        simp [List.filterMap_cons, hf, hg]
    | none =>
      cases hg : g c with
      | some b =>
        cases b? with
        | some b0 =>
          simp only [uniq2Go, hf, hg]
          have : (some b0).toList ++ (c :: l).filterMap g =
              b0 :: b :: l.filterMap g := by
            simp [List.filterMap_cons, hg]
          rw [this]
          cases ha2 : a?.toList ++ (c :: l).filterMap f with
          | nil => rfl
          | cons x t => cases t <;> rfl
        | none =>
          simp only [uniq2Go, hf, hg]
          rw [ih a? (some b)]
          simp [List.filterMap_cons, hf, hg]
      | none =>
        simp only [uniq2Go, hf, hg]
        rw [ih a? b?]
        simp [List.filterMap_cons, hf, hg]

theorem exactlyOne2_none_left {α β : Type} {xs : List α} (h : xs.length ≠ 1)
    (ys : List β) : exactlyOne2 xs ys = none := by
  match xs with
  | [] => cases ys with | nil => rfl | cons b t => cases t <;> rfl
  | [a] => exact absurd rfl h
  | a :: b :: t => cases ys with | nil => rfl | cons y t2 => cases t2 <;> rfl

theorem exactlyOne2_none_right {α β : Type} (xs : List α) {ys : List β}
    (h : ys.length ≠ 1) : exactlyOne2 xs ys = none := by
  match ys with
  | [] => cases xs with | nil => rfl | cons a t => cases t <;> rfl
  | [b] => exact absurd rfl h
  | b :: c :: t => cases xs with | nil => rfl | cons a t2 => cases t2 <;> rfl

theorem exactlyOne2_perm {α β : Type} {xs xs2 : List α} {ys ys2 : List β}
    (hx : xs.Perm xs2) (hy : ys.Perm ys2) :
    exactlyOne2 xs ys = exactlyOne2 xs2 ys2 := by
  by_cases h1 : xs.length = 1
  · match xs, h1 with
    | [a], _ =>
      have hxs2 : xs2 = [a] := List.perm_singleton.mp hx.symm
      subst hxs2
      by_cases h2 : ys.length = 1
      · match ys, h2 with
        | [b], _ =>
          have hys2 : ys2 = [b] := List.perm_singleton.mp hy.symm
          subst hys2
          rfl
      · rw [exactlyOne2_none_right _ h2, exactlyOne2_none_right _ (by
          rw [← hy.length_eq]; exact h2)]
  · rw [exactlyOne2_none_left h1, exactlyOne2_none_left (by
      rw [← hx.length_eq]; exact h1)]

theorem responseFold_eq (l : List ResponseChild) :
    ∀ (h? : Option String) (q? : Option (Bool × String)),
      responseFold l h? (q?.map Prod.fst) (q?.map Prod.snd) =
        (uniq2Go hrefOf psPairOf l h? q?).map
          (fun p => ⟨p.1, p.2.1, p.2.2⟩) := by
  induction l with
  | nil =>
    intro h? q?
    cases h? <;> cases q? <;> rfl
  | cons c l ih =>
    intro h? q?
    cases c with
    | href v =>
      cases h? with
      | some h0 => cases q? <;> rfl
      | none =>
        simp only [responseFold, uniq2Go, hrefOf]
        exact ih (some v) q?
    | propstat ps =>
      cases hic : ps.is_collection with
      | some yesno =>
        cases q? with
        | some q0 =>
          simp only [responseFold, uniq2Go, hrefOf, psPairOf, hic]
          cases q0
          rfl
        | none =>
          simp only [responseFold, uniq2Go, hrefOf, psPairOf, hic]
          exact ih h? (some (yesno, ps.status))
      | none =>
        simp only [responseFold, uniq2Go, hrefOf, psPairOf, hic]
        exact ih h? q?
    | discard =>
      simp only [responseFold, uniq2Go, hrefOf, psPairOf]
      exact ih h? q?

theorem propstatFold_eq (l : List PropstatChild) :
    ∀ (b? : Option Bool) (s? : Option String),
      propstatFold l b? s? =
        (uniq2Go collOf statOf l b? s?).map (fun p => ⟨some p.1, p.2⟩) := by
  induction l with
  | nil =>
    intro b? s?
    cases b? <;> cases s? <;> rfl
  | cons c l ih =>
    intro b? s?
    cases c with
    | isCollection yesno =>
      cases b? with
      | some b0 => rfl
      | none =>
        simp only [propstatFold, uniq2Go, collOf]
        exact ih (some yesno) s?
    | status s =>
      cases s? with
      | some s0 => rfl
      | none =>
        simp only [propstatFold, uniq2Go, collOf, statOf]
        exact ih b? (some s)
    | discard =>
      simp only [propstatFold, uniq2Go, collOf, statOf]
      exact ih b? s?

theorem responseFold_char (l : List ResponseChild) :
    responseFold l none none none =
      (exactlyOne2 (l.filterMap hrefOf) (l.filterMap psPairOf)).map
        (fun p => ⟨p.1, p.2.1, p.2.2⟩) := by
  have hdisj : ∀ c, (hrefOf c).isSome → psPairOf c = none := by
    intro c h
    cases c <;> simp_all [hrefOf, psPairOf]
  have h1 : responseFold l none none none =
      (uniq2Go hrefOf psPairOf l none none).map
        (fun p => ⟨p.1, p.2.1, p.2.2⟩) :=
    responseFold_eq l none none
  rw [h1, uniq2Go_char hrefOf psPairOf hdisj l none none]
  rfl

theorem propstatFold_char (l : List PropstatChild) :
    propstatFold l none none =
      (exactlyOne2 (l.filterMap collOf) (l.filterMap statOf)).map
        (fun p => ⟨some p.1, p.2⟩) := by
  have hdisj : ∀ c, (collOf c).isSome → statOf c = none := by
    intro c h
    cases c <;> simp_all [collOf, statOf]
  rw [propstatFold_eq l none none,
    uniq2Go_char collOf statOf hdisj l none none]
  rfl

/-! Structure of `outsAll`. -/

theorem outsAll_some {χ τ : Type} (out : χ → COut τ) :
    ∀ (cs : List χ) (l : List τ), outsAll out cs = some l →
      l = cs.filterMap (fun c => cOutValue (out c)) := by
  intro cs
  induction cs with
  | nil => intro l h; cases h; rfl
  | cons c cs ih =>
    intro l h
    simp only [outsAll] at h
    cases hout : out c with
    | cutC => rw [hout] at h; cases h
    | skip =>
      rw [hout] at h
      have hcv : cOutValue (out c) = none := by rw [hout]; rfl
      simp only [List.filterMap_cons, hcv]
      exact ih l h
    | val x =>
      rw [hout] at h
      cases hrec : outsAll out cs with
      | none => rw [hrec] at h; cases h
      | some l2 =>
        rw [hrec] at h
        have hcv : cOutValue (out c) = some x := by rw [hout]; rfl
        have hl : l = x :: l2 := by
          cases h
          rfl
        subst hl
        simp only [List.filterMap_cons, hcv]
        rw [ih l2 hrec]

theorem outsAll_none_iff {χ τ : Type} (out : χ → COut τ) (cs : List χ) :
    outsAll out cs = none ↔ ∃ c ∈ cs, out c = COut.cutC := by
  induction cs with
  | nil => simp [outsAll]
  | cons c cs ih =>
    simp only [outsAll]
    cases hout : out c with
    | cutC =>
      simp only [hout, List.mem_cons]
      constructor
      · intro _; exact ⟨c, Or.inl rfl, hout⟩
      · intro _; trivial
    | skip =>
      simp only [hout, List.mem_cons]
      rw [ih]
      constructor
      · rintro ⟨x, hx, h⟩; exact ⟨x, Or.inr hx, h⟩
      · rintro ⟨x, hx | hx, h⟩
        · subst hx; rw [hout] at h; cases h
        · exact ⟨x, hx, h⟩
    | val x =>
      simp only [hout, List.mem_cons]
      constructor
      · intro h
        have hrec : outsAll out cs = none := by
          cases hrec2 : outsAll out cs with
          | none => rfl
          | some l => rw [hrec2] at h; cases h
        obtain ⟨y, hy, hcut⟩ := ih.mp hrec
        exact ⟨y, Or.inr hy, hcut⟩
      · rintro ⟨y, hy | hy, hcut⟩
        · subst hy; rw [hout] at hcut; cases hcut
        · rw [ih.mpr ⟨y, hy, hcut⟩]
          rfl

theorem length_filterMap_countP {χ τ : Type} (f : χ → Option τ) :
    ∀ (cs : List χ), (cs.filterMap f).length =
      cs.countP (fun c => (f c).isSome) := by
  intro cs
  induction cs with
  | nil => rfl
  | cons c cs ih =>
    rw [List.filterMap_cons, List.countP_cons]
    cases hf : f c with
    | none => simp [hf, ih]
    | some x => simp [hf, ih]

/-! Permutation invariance of the semantic functions (claim C6). -/

theorem psOut_no_cut (c : PChild) : psOut c ≠ COut.cutC := by
  cases c <;> simp [psOut]

theorem outsAll_psOut_some (cs : List PChild) :
    outsAll psOut cs = some (cs.filterMap (fun c => cOutValue (psOut c))) := by
  cases h : outsAll psOut cs with
  | none =>
    obtain ⟨c, -, hcut⟩ := (outsAll_none_iff psOut cs).mp h
    exact absurd hcut (psOut_no_cut c)
  | some l => rw [outsAll_some psOut cs l h]

theorem psSem_eq (cs : List PChild) :
    psSem cs =
      propstatFold (cs.filterMap (fun c => cOutValue (psOut c))) none none := by
  unfold psSem
  rw [outsAll_psOut_some]
  rfl

theorem psSem_perm {cs cs2 : List PChild} (hp : cs.Perm cs2) :
    psSem cs = psSem cs2 := by
  rw [psSem_eq, psSem_eq, propstatFold_char, propstatFold_char]
  exact congrArg (Option.map _)
    (exactlyOne2_perm ((hp.filterMap _).filterMap _)
      ((hp.filterMap _).filterMap _))

theorem childEquiv_out : ∀ {c c2 : RChild}, childEquiv c c2 →
    respOut c = respOut c2 := by
  intro c c2 h
  cases c <;> cases c2 <;>
    first
      | exact congrArg respOut h
      | (exact (by
          have hp : List.Perm _ _ := h
          simp only [respOut]
          rw [psSem_perm hp]))

theorem outsAll_congr {χ τ : Type} {out : χ → COut τ} :
    ∀ {cs cs2 : List χ}, List.Forall₂ (fun a b => out a = out b) cs cs2 →
      outsAll out cs = outsAll out cs2 := by
  intro cs cs2 h
  induction h with
  | nil => rfl
  | cons hab hrest ih => simp only [outsAll, hab, ih]

theorem respSem_equiv {cs cs2 : List RChild} (h : respEquiv cs cs2) :
    respSem cs = respSem cs2 := by
  obtain ⟨mid, hf, hperm⟩ := h
  have h1 : outsAll respOut cs = outsAll respOut mid :=
    outsAll_congr (List.Forall₂.imp (fun a b hab => childEquiv_out hab) hf)
  unfold respSem
  rw [h1]
  cases hmid : outsAll respOut mid with
  | none =>
    have h2 : outsAll respOut cs2 = none := by
      rw [outsAll_none_iff] at hmid ⊢
      obtain ⟨c, hc, hcut⟩ := hmid
      exact ⟨c, hperm.subset hc, hcut⟩
    rw [h2]
  | some l =>
    have h2 : outsAll respOut cs2 =
        some (cs2.filterMap (fun c => cOutValue (respOut c))) := by
      cases h3 : outsAll respOut cs2 with
      | some l2 => rw [outsAll_some respOut cs2 l2 h3]
      | none =>
        rw [outsAll_none_iff] at h3
        obtain ⟨c, hc, hcut⟩ := h3
        have h4 : outsAll respOut mid = none :=
          (outsAll_none_iff _ _).mpr ⟨c, hperm.symm.subset hc, hcut⟩
        rw [h4] at hmid
        cases hmid
    rw [h2]
    have hl : l = mid.filterMap (fun c => cOutValue (respOut c)) :=
      outsAll_some _ _ _ hmid
    subst hl
    have hfp : (mid.filterMap fun c => cOutValue (respOut c)).Perm
        (cs2.filterMap fun c => cOutValue (respOut c)) := hperm.filterMap _
    show responseFold _ none none none = responseFold _ none none none
    rw [responseFold_char, responseFold_char]
    exact congrArg (Option.map _)
      (exactlyOne2_perm (hfp.filterMap _) (hfp.filterMap _))

theorem itemEquiv_out : ∀ {c c2 : DocItem}, itemEquiv c c2 →
    docOut c = docOut c2 := by
  intro c c2 h
  cases c <;> cases c2 <;>
    first
      | exact congrArg docOut h
      | (exact (by
          have he : respEquiv _ _ := h
          simp only [docOut]
          rw [respSem_equiv he]))

theorem docSem_equiv {d e : List DocItem} (h : docEquiv d e) :
    docSem d = docSem e := by
  have h0 : List.Forall₂ itemEquiv d e := h
  have h2 : List.Forall₂ (fun a b => docOut a = docOut b) d e :=
    List.Forall₂.imp (fun a b hab => itemEquiv_out hab) h0
  have h1 : outsAll docOut d = outsAll docOut e := outsAll_congr h2
  unfold docSem
  rw [h1]

/-! Counting bridges between the semantic folds and the abstract child
lists (claims C4 and C9). -/

theorem filterMap_comp_eq {α β γ : Type} (f : α → Option β) (g : β → Option γ) :
    ∀ (l : List α), (l.filterMap f).filterMap g =
      l.filterMap (fun x => (f x).bind g) := by
  intro l
  induction l with
  | nil => rfl
  | cons a l ih =>
    cases hf : f a with
    | none => simp [List.filterMap_cons, hf, ih]
    | some b =>
      cases hg : g b with
      | none => simp [List.filterMap_cons, hf, hg, ih]
      | some c => simp [List.filterMap_cons, hf, hg, ih]

theorem countP_congr_mem {α : Type} {p q : α → Bool} :
    ∀ {l : List α}, (∀ a ∈ l, p a = q a) → l.countP p = l.countP q := by
  intro l
  induction l with
  | nil => intro _; rfl
  | cons a l ih =>
    intro h
    rw [List.countP_cons, List.countP_cons,
      ih (fun x hx => h x (List.mem_cons_of_mem a hx)),
      h a (List.mem_cons_self a l)]

theorem exactlyOne2_some {α β : Type} {xs : List α} {ys : List β}
    {p : α × β} (h : exactlyOne2 xs ys = some p) :
    xs.length = 1 ∧ ys.length = 1 := by
  constructor
  · by_contra hx
    rw [exactlyOne2_none_left hx ys] at h
    cases h
  · by_contra hy
    rw [exactlyOne2_none_right xs hy] at h
    cases h

theorem psSem_shape {cs : List PChild} {v : Propstat} (h : psSem cs = some v) :
    ∃ b st, v = ⟨some b, st⟩ := by
  rw [psSem_eq, propstatFold_char] at h
  cases he : exactlyOne2
      ((cs.filterMap fun c => cOutValue (psOut c)).filterMap collOf)
      ((cs.filterMap fun c => cOutValue (psOut c)).filterMap statOf) with
  | none => rw [he] at h; cases h
  | some p =>
    rw [he] at h
    simp only [Option.map_some', Option.some.injEq] at h
    exact ⟨p.1, p.2, h.symm⟩

theorem hrefs_length (cs : List RChild) :
    ((cs.filterMap fun c => cOutValue (respOut c)).filterMap hrefOf).length =
      cs.countP isHrefChild := by
  rw [filterMap_comp_eq, length_filterMap_countP]
  apply countP_congr_mem
  intro c _
  cases c with
  | hrefC s => rfl
  | propstatC ps =>
    simp only [respOut]
    cases hps : psSem ps with
    | some v => rfl
    | none => rfl
  | rdescC s => rfl
  | locationC s => rfl
  | extC b => rfl

theorem pairs_length (cs : List RChild)
    (hnc : ∀ c ∈ cs, respOut c ≠ COut.cutC) :
    ((cs.filterMap fun c => cOutValue (respOut c)).filterMap psPairOf).length =
      cs.countP isPropstatChild := by
  rw [filterMap_comp_eq, length_filterMap_countP]
  apply countP_congr_mem
  intro c hc
  cases c with
  | hrefC s => rfl
  | propstatC ps =>
    simp only [respOut]
    cases hps : psSem ps with
    | some v =>
      obtain ⟨b, st, hv⟩ := psSem_shape hps
      subst hv
      simp [cOutValue, psPairOf, isPropstatChild]
    | none =>
      have := hnc (RChild.propstatC ps) hc
      rw [respOut] at this
      rw [hps] at this
      exact absurd rfl this
  | rdescC s => rfl
  | locationC s => rfl
  | extC b => rfl

theorem colls_length (cs : List PChild) :
    ((cs.filterMap fun c => cOutValue (psOut c)).filterMap collOf).length =
      cs.countP isPropChild := by
  rw [filterMap_comp_eq, length_filterMap_countP]
  apply countP_congr_mem
  intro c _
  cases c <;> rfl

theorem stats_length (cs : List PChild) :
    ((cs.filterMap fun c => cOutValue (psOut c)).filterMap statOf).length =
      cs.countP isStatusChild := by
  rw [filterMap_comp_eq, length_filterMap_countP]
  apply countP_congr_mem
  intro c _
  cases c <;> rfl

theorem respSem_none_of_hrefs {cs : List RChild}
    (hcount : cs.countP isHrefChild ≠ 1) : respSem cs = none := by
  unfold respSem
  cases houts : outsAll respOut cs with
  | none => rfl
  | some l =>
    have hl := outsAll_some respOut cs l houts
    subst hl
    show responseFold _ none none none = none
    rw [responseFold_char]
    rw [exactlyOne2_none_left (by rw [hrefs_length]; exact hcount) _]
    rfl

theorem psSem_none_of_counts {cs : List PChild}
    (hcount : cs.countP isPropChild ≠ 1 ∨ cs.countP isStatusChild ≠ 1) :
    psSem cs = none := by
  rw [psSem_eq, propstatFold_char]
  rcases hcount with h | h
  · rw [exactlyOne2_none_left (by rw [colls_length]; exact h) _]
    rfl
  · rw [exactlyOne2_none_right _ (by rw [stats_length]; exact h)]
    rfl

/-- C4: the parser enforces the exactly-one cardinalities.  A rendered
`response` whose number of `href` children differs from one (zero, or two
or more) makes the `response` parser hard-fail, and a rendered `propstat`
whose number of `prop` children or of `status` children differs from one
makes the `propstat` parser hard-fail. -/
theorem claim4_exactly_one_cardinalities :
    (∀ (cs : List RChild) (rest : List Token), cs.all wfRChild = true →
      cs.countP isHrefChild ≠ 1 →
      response (renderItem (DocItem.respC cs) ++ rest) = PRes.cut) ∧
    (∀ (cs : List PChild) (rest : List Token), cs.all wfPChild = true →
      (cs.countP isPropChild ≠ 1 ∨ cs.countP isStatusChild ≠ 1) →
      propstat (renderRChild (RChild.propstatC cs) ++ rest) = PRes.cut) := by
  constructor
  · intro cs rest hwf hcount
    rw [response_render cs rest hwf, respSem_none_of_hrefs hcount]
  · intro cs rest hwf hcount
    rw [propstat_render cs rest hwf, psSem_none_of_counts hcount]

/-- Witness for C4: a response with no `href`, a response with two
`href`s, a propstat with no `prop`, and a propstat with two `status`
elements all hard-fail. -/
theorem claim4_exactly_one_cardinalities_witness :
    response (renderItem (DocItem.respC
        [RChild.propstatC [PChild.propC true, PChild.statusC okStatus]]) ++ []) =
      PRes.cut ∧
    response (renderItem (DocItem.respC
        [RChild.hrefC ("/a"), RChild.hrefC ("/b"),
         RChild.propstatC [PChild.propC true, PChild.statusC okStatus]]) ++ []) =
      PRes.cut ∧
    propstat (renderRChild (RChild.propstatC [PChild.statusC okStatus]) ++ []) =
      PRes.cut ∧
    propstat (renderRChild (RChild.propstatC
        [PChild.propC false, PChild.statusC okStatus,
         PChild.statusC okStatus]) ++ []) = PRes.cut :=
  ⟨claim4_exactly_one_cardinalities.1 _ [] (by decide) (by decide),
   claim4_exactly_one_cardinalities.1 _ [] (by decide) (by decide),
   claim4_exactly_one_cardinalities.2 _ [] (by decide) (Or.inl (by decide)),
   claim4_exactly_one_cardinalities.2 _ [] (by decide) (Or.inr (by decide))⟩

/-- C9: a successfully parsed `response` has exactly one `propstat`
child (each parsed propstat carries its `resourcetype` result, and a
second one trips the duplicate check), and a rendered response with two
or more propstat children always hard-fails even though the grammar's
repetition would admit them. -/
theorem claim9_single_propstat (cs : List RChild) (rest rest2 : List Token)
    (r : Response) (hwf : cs.all wfRChild = true) :
    (response (renderItem (DocItem.respC cs) ++ rest) = PRes.ok r rest2 →
      cs.countP isPropstatChild = 1) ∧
    (2 ≤ cs.countP isPropstatChild →
      response (renderItem (DocItem.respC cs) ++ rest) = PRes.cut) := by
  constructor
  · intro h
    rw [response_render cs rest hwf] at h
    have hsem : ∃ r2, respSem cs = some r2 := by
      cases hs : respSem cs with
      | some r2 => exact ⟨r2, rfl⟩
      | none => rw [hs] at h; cases h
    obtain ⟨r2, hs⟩ := hsem
    unfold respSem at hs
    cases houts : outsAll respOut cs with
    | none => rw [houts] at hs; cases hs
    | some l =>
      rw [houts] at hs
      have hl := outsAll_some respOut cs l houts
      subst hl
      have hfold : responseFold
          (cs.filterMap fun c => cOutValue (respOut c)) none none none =
            some r2 := hs
      rw [responseFold_char] at hfold
      cases he : exactlyOne2
          ((cs.filterMap fun c => cOutValue (respOut c)).filterMap hrefOf)
          ((cs.filterMap fun c => cOutValue (respOut c)).filterMap psPairOf)
          with
      | none => rw [he] at hfold; cases hfold
      | some p =>
        have hlen := (exactlyOne2_some he).2
        have hnc : ∀ c ∈ cs, respOut c ≠ COut.cutC := by
          intro c hc hcut
          have hnone : outsAll respOut cs = none :=
            (outsAll_none_iff _ _).mpr ⟨c, hc, hcut⟩
          rw [hnone] at houts
          cases houts
        rw [pairs_length cs hnc] at hlen
        exact hlen
  · intro h2
    rw [response_render cs rest hwf]
    have hsem : respSem cs = none := by
      unfold respSem
      cases houts : outsAll respOut cs with
      | none => rfl
      | some l =>
        have hl := outsAll_some respOut cs l houts
        subst hl
        have hnc : ∀ c ∈ cs, respOut c ≠ COut.cutC := by
          intro c hc hcut
          have hnone : outsAll respOut cs = none :=
            (outsAll_none_iff _ _).mpr ⟨c, hc, hcut⟩
          rw [hnone] at houts
          cases houts
        show responseFold _ none none none = none
        rw [responseFold_char]
        rw [exactlyOne2_none_right _ (by rw [pairs_length cs hnc]; omega)]
        rfl
    rw [hsem]

/-- Witness for C9: the one-propstat response parses and indeed counts
one propstat child; the two-propstat response hard-fails. -/
theorem claim9_single_propstat_witness :
    (response (renderItem (DocItem.respC
        [RChild.hrefC ("/a"),
         RChild.propstatC [PChild.propC true, PChild.statusC okStatus]]) ++ []) =
          PRes.ok ⟨("/a"), true, okStatus⟩ [] →
      ([RChild.hrefC ("/a"),
        RChild.propstatC [PChild.propC true, PChild.statusC okStatus]]).countP
          isPropstatChild = 1) ∧
    (2 ≤ ([RChild.hrefC ("/a"),
        RChild.propstatC [PChild.propC true, PChild.statusC okStatus],
        RChild.propstatC [PChild.propC false, PChild.statusC okStatus]]).countP
          isPropstatChild →
      response (renderItem (DocItem.respC
        [RChild.hrefC ("/a"),
         RChild.propstatC [PChild.propC true, PChild.statusC okStatus],
         RChild.propstatC [PChild.propC false, PChild.statusC okStatus]]) ++ []) =
        PRes.cut) :=
  ⟨(claim9_single_propstat _ [] [] ⟨("/a"), true, okStatus⟩ (by decide)).1,
   (claim9_single_propstat _ [] [] ⟨("/a"), true, okStatus⟩ (by decide)).2⟩

/-- C6: order independence.  Two well-formed abstract documents whose
responses' sibling children (and each nested propstat's sibling
children) are permutations of each other parse to the same
directory/file partition. -/
theorem claim6_order_independence (d e : List DocItem)
    (hd : wfDoc d = true) (he : wfDoc e = true) (heq : docEquiv d e) :
    parse (renderDoc d) = parse (renderDoc e) := by
  rw [parse_renderDoc d hd, parse_renderDoc e he]
  exact docSem_equiv heq

/-- Witness for C6: the reversed-order document of `permDocA` parses the
same as the canonical `permDocB`. -/
theorem claim6_order_independence_witness :
    parse (renderDoc permDocA) = parse (renderDoc permDocB) :=
  claim6_order_independence permDocA permDocB (by decide) (by decide)
    (by
      refine List.Forall₂.cons ?_ List.Forall₂.nil
      show respEquiv _ _
      refine ⟨[RChild.propstatC [PChild.propC true, PChild.statusC okStatus],
               RChild.hrefC ("/x/")], ?_, ?_⟩
      · refine List.Forall₂.cons ?_ (List.Forall₂.cons ?_ List.Forall₂.nil)
        · show List.Perm _ _
          exact List.Perm.swap _ _ _
        · rfl
      · exact List.Perm.swap _ _ _)

/-! Claim C5: the status check after a successful grammar pass. -/

theorem buildListing_all_ok :
    ∀ (rs : List Response), (∀ r ∈ rs, is_ok r.status = true) →
      buildListing rs = Except.ok
        ⟨(rs.filter (fun r => r.is_collection)).map Response.href,
         (rs.filter (fun r => !r.is_collection)).map Response.href⟩ := by
  intro rs
  induction rs with
  | nil => intro _; rfl
  | cons r rs ih =>
    intro h
    have hr := h r (List.mem_cons_self r rs)
    have hrs := ih (fun x hx => h x (List.mem_cons_of_mem r hx))
    simp only [buildListing, hr, if_true, hrs]
    cases hc : r.is_collection with
    | true => simp [List.filter_cons, hc]
    | false => simp [List.filter_cons, hc]

theorem buildListing_first_bad :
    ∀ (rs : List Response) (r : Response),
      rs.find? (fun x => !is_ok x.status) = some r →
      buildListing rs =
        Except.error (FromXmlError.badStatus r.href r.status) := by
  intro rs
  induction rs with
  | nil => intro r h; cases h
  | cons a rs ih =>
    intro r h
    cases hok : is_ok a.status with
    | false =>
      simp only [List.find?, hok, Bool.not_false] at h
      cases h
      simp [buildListing, hok]
    | true =>
      simp only [List.find?, hok, Bool.not_true] at h
      have hrs := ih r h
      simp [buildListing, hok, hrs]

/-- C5: after the grammar stage succeeds with a response list, if some
response's status fails `is_ok` (first word starting with `HTTP/`,
second word `200`), `parse` returns `BadStatus` carrying that response's
href and raw status; if every status passes, `parse` returns the
partition into directories and files and no `BadStatus` is produced. -/
theorem claim5_bad_status (ts : List Token) (rs : List (Option Response))
    (h : runParse multistatusSeq ts = some rs) :
    ((∃ r ∈ rs.filterMap id, is_ok r.status = false) →
      ∃ r, r ∈ rs.filterMap id ∧ is_ok r.status = false ∧
        parse ts = Except.error (FromXmlError.badStatus r.href r.status)) ∧
    ((∀ r ∈ rs.filterMap id, is_ok r.status = true) →
      parse ts = Except.ok
        ⟨((rs.filterMap id).filter (fun r => r.is_collection)).map
            Response.href,
         ((rs.filterMap id).filter (fun r => !r.is_collection)).map
            Response.href⟩) := by
  have hp : parse ts = buildListing (rs.filterMap id) := by
    unfold parse
    rw [h]
  constructor
  · rintro ⟨r0, hr0, hbad⟩
    have hsome : ((rs.filterMap id).find? (fun x => !is_ok x.status)).isSome := by
      rw [List.find?_isSome]
      exact ⟨r0, hr0, by simp [hbad]⟩
    obtain ⟨r, hr⟩ := Option.isSome_iff_exists.mp hsome
    refine ⟨r, List.mem_of_find?_eq_some hr, ?_, ?_⟩
    · have := List.find?_some hr
      simpa using this
    · rw [hp]
      exact buildListing_first_bad _ r hr
  · intro hall
    rw [hp]
    exact buildListing_all_ok _ hall

/-- Witness for C5: a document with a 404 response yields `BadStatus`
naming `/b`; an all-200 document yields the partition. -/
theorem claim5_bad_status_witness :
    (∃ r, r ∈ ([some ⟨("/a/"), true, okStatus⟩,
        some ⟨("/b"), false, notFoundStatus⟩] :
          List (Option Response)).filterMap id ∧
      is_ok r.status = false ∧
      parse (renderDoc badDoc) =
        Except.error (FromXmlError.badStatus r.href r.status)) ∧
    parse (renderDoc listingDoc) = Except.ok
      ⟨((([some ⟨("/d/"), true, okStatus⟩, some ⟨("/d/sub/"), true, okStatus⟩,
          some ⟨("/d/f"), false, okStatus⟩] :
            List (Option Response)).filterMap id).filter
          (fun r => r.is_collection)).map Response.href,
       ((([some ⟨("/d/"), true, okStatus⟩, some ⟨("/d/sub/"), true, okStatus⟩,
          some ⟨("/d/f"), false, okStatus⟩] :
            List (Option Response)).filterMap id).filter
          (fun r => !r.is_collection)).map Response.href⟩ :=
  ⟨(claim5_bad_status (renderDoc badDoc)
      [some ⟨("/a/"), true, okStatus⟩, some ⟨("/b"), false, notFoundStatus⟩]
      (by decide)).1
    ⟨⟨("/b"), false, notFoundStatus⟩, by decide, by decide⟩,
   (claim5_bad_status (renderDoc listingDoc)
      [some ⟨("/d/"), true, okStatus⟩, some ⟨("/d/sub/"), true, okStatus⟩,
       some ⟨("/d/f"), false, okStatus⟩] (by decide)).2 (by decide)⟩

/-! Claim C10: totality of the `text` sub-parser. -/

theorem textGo_char : ∀ (input : List Token),
    textGo input = ((input.takeWhile isTextTok).foldr
      (fun t acc => textOf t ++ acc) "", input.dropWhile isTextTok) := by
  intro input
  induction input with
  | nil => rfl
  | cons t rest ih =>
    cases t with
    | text s =>
      rw [textGo_text, ih]
      simp [List.takeWhile_cons, List.dropWhile_cons, isTextTok, textOf]
    | openDav n => rfl
    | closeDav n => rfl
    | openExt n ns => rfl
    | closeExt n ns => rfl

/-- C10: the `text` sub-parser is total: it always succeeds, consuming
exactly the maximal run of leading `Text` tokens and returning their
concatenation (the empty string when there is none); consequently an
`href` or `status` element with empty content parses to the empty
string. -/
theorem claim10_text_total :
    (∀ input : List Token,
      text input = PRes.ok
        ((input.takeWhile isTextTok).foldr (fun t acc => textOf t ++ acc) "")
        (input.dropWhile isTextTok)) ∧
    (∀ rest : List Token,
      href_tag (Token.openDav ("href") :: Token.closeDav ("href") :: rest) =
        PRes.ok ("") rest) ∧
    (∀ rest : List Token,
      status_tag
          (Token.openDav ("status") :: Token.closeDav ("status") :: rest) =
        PRes.ok ("") rest) := by
  refine ⟨?_, ?_, ?_⟩
  · intro input
    unfold text
    rw [textGo_char]
  · intro rest
    simp [href_tag, delimited, pLeft, pThen, lit, openD, closeD, text, textGo]
  · intro rest
    simp [status_tag, delimited, pLeft, pThen, lit, openD, closeD, text, textGo]

/-! Claim C7: extension-block tolerance and its limits. -/

theorem outsAll_psOut_erase : ∀ (cs : List PChild),
    outsAll psOut (erasePs cs) = outsAll psOut cs := by
  intro cs
  induction cs with
  | nil => rfl
  | cons c cs ih =>
    cases c with
    | extC b =>
      have he : erasePs (PChild.extC b :: cs) = erasePs cs := by
        simp [erasePs, List.filter_cons]
      rw [he, ih]
      simp [outsAll, psOut]
    | propC bb =>
      have he : erasePs (PChild.propC bb :: cs) =
          PChild.propC bb :: erasePs cs := by
        simp [erasePs, List.filter_cons]
      rw [he]
      simp [outsAll, psOut, ih]
    | statusC s =>
      have he : erasePs (PChild.statusC s :: cs) =
          PChild.statusC s :: erasePs cs := by
        simp [erasePs, List.filter_cons]
      rw [he]
      simp [outsAll, psOut, ih]
    | rdescC s =>
      have he : erasePs (PChild.rdescC s :: cs) =
          PChild.rdescC s :: erasePs cs := by
        simp [erasePs, List.filter_cons]
      rw [he]
      simp [outsAll, psOut, ih]

theorem psSem_erase (cs : List PChild) : psSem (erasePs cs) = psSem cs := by
  unfold psSem
  rw [outsAll_psOut_erase]

theorem respOut_eraseR (c : RChild) : respOut (eraseRChild c) = respOut c := by
  cases c with
  | propstatC ps => simp [eraseRChild, respOut, psSem_erase]
  | hrefC s => rfl
  | rdescC s => rfl
  | locationC s => rfl
  | extC b => rfl

theorem outsAll_respOut_erase : ∀ (cs : List RChild),
    outsAll respOut (eraseResp cs) = outsAll respOut cs := by
  intro cs
  induction cs with
  | nil => rfl
  | cons c cs ih =>
    cases c with
    | extC b =>
      have he : eraseResp (RChild.extC b :: cs) = eraseResp cs := by
        simp [eraseResp, List.filter_cons]
      rw [he, ih]
      simp [outsAll, respOut]
    | hrefC s =>
      have he : eraseResp (RChild.hrefC s :: cs) =
          RChild.hrefC s :: eraseResp cs := by
        simp [eraseResp, List.filter_cons, eraseRChild]
      rw [he]
      simp [outsAll, respOut, ih]
    | propstatC ps =>
      have he : eraseResp (RChild.propstatC ps :: cs) =
          RChild.propstatC (erasePs ps) :: eraseResp cs := by
        simp [eraseResp, List.filter_cons, eraseRChild]
      rw [he]
      simp only [outsAll]
      rw [show respOut (RChild.propstatC (erasePs ps)) =
          respOut (RChild.propstatC ps) from respOut_eraseR (RChild.propstatC ps)]
      rw [ih]
    | rdescC s =>
      have he : eraseResp (RChild.rdescC s :: cs) =
          RChild.rdescC s :: eraseResp cs := by
        simp [eraseResp, List.filter_cons, eraseRChild]
      rw [he]
      simp [outsAll, respOut, ih]
    | locationC s =>
      have he : eraseResp (RChild.locationC s :: cs) =
          RChild.locationC s :: eraseResp cs := by
        simp [eraseResp, List.filter_cons, eraseRChild]
      rw [he]
      simp [outsAll, respOut, ih]

theorem respSem_erase (cs : List RChild) :
    respSem (eraseResp cs) = respSem cs := by
  unfold respSem
  rw [outsAll_respOut_erase]

theorem docOut_eraseItem (c : DocItem) : docOut (eraseItem c) = docOut c := by
  cases c with
  | respC cs => simp [eraseItem, docOut, respSem_erase]
  | rdescC s => rfl
  | extC b => rfl

theorem outsAll_docOut_erase : ∀ (d : List DocItem),
    outsAll docOut (eraseDoc d) = outsAll docOut d := by
  intro d
  induction d with
  | nil => rfl
  | cons c d ih =>
    cases c with
    | extC b =>
      have he : eraseDoc (DocItem.extC b :: d) = eraseDoc d := by
        simp [eraseDoc, List.filter_cons]
      rw [he, ih]
      simp [outsAll, docOut]
    | respC cs =>
      have he : eraseDoc (DocItem.respC cs :: d) =
          DocItem.respC (eraseResp cs) :: eraseDoc d := by
        simp [eraseDoc, List.filter_cons, eraseItem]
      rw [he]
      simp only [outsAll]
      rw [show docOut (DocItem.respC (eraseResp cs)) =
          docOut (DocItem.respC cs) from docOut_eraseItem (DocItem.respC cs)]
      rw [ih]
    | rdescC s =>
      have he : eraseDoc (DocItem.rdescC s :: d) =
          DocItem.rdescC s :: eraseDoc d := by
        simp [eraseDoc, List.filter_cons, eraseItem]
      rw [he]
      simp [outsAll, docOut, ih]

theorem docSem_erase (d : List DocItem) : docSem (eraseDoc d) = docSem d := by
  unfold docSem
  rw [outsAll_docOut_erase]

theorem wfPs_erase (cs : List PChild) : (erasePs cs).all wfPChild = true := by
  rw [List.all_eq_true]
  intro c hc
  unfold erasePs at hc
  rw [List.mem_filter] at hc
  cases c with
  | extC b => simp at hc
  | propC b => rfl
  | statusC s => rfl
  | rdescC s => rfl

theorem wfResp_erase (cs : List RChild) :
    (eraseResp cs).all wfRChild = true := by
  rw [List.all_eq_true]
  intro c hc
  unfold eraseResp at hc
  rw [List.mem_map] at hc
  obtain ⟨c0, hc0, hce⟩ := hc
  rw [List.mem_filter] at hc0
  subst hce
  cases c0 with
  | extC b => simp at hc0
  | propstatC ps =>
    show wfRChild (RChild.propstatC (erasePs ps)) = true
    simp [wfRChild, wfPs_erase]
  | hrefC s => rfl
  | rdescC s => rfl
  | locationC s => rfl

theorem wfDoc_erase (d : List DocItem) : wfDoc (eraseDoc d) = true := by
  unfold wfDoc eraseDoc
  rw [List.all_eq_true]
  intro c hc
  rw [List.mem_map] at hc
  obtain ⟨c0, hc0, hce⟩ := hc
  rw [List.mem_filter] at hc0
  subst hce
  cases c0 with
  | extC b => simp at hc0
  | respC cs =>
    show wfItem (DocItem.respC (eraseResp cs)) = true
    simp [wfItem]
    have := wfResp_erase cs
    rw [List.all_eq_true] at this
    intro x hx
    exact this x hx
  | rdescC s => rfl

/-- C7, amended: extension tolerance holds at the child positions of
`multistatus`, `response` and `propstat` — erasing all well-nested
extension blocks there leaves `parse`'s output unchanged — and the two
error rules hold at the top level: a `Text` token at a structural
position not enclosed in an extension element is a parse error, and a
standard token inside an unclosed extension block is a parse error.
(Insertion inside `prop`/`resourcetype`/`href`/`status` is NOT
tolerated: see the counterexample.) -/
theorem claim7_extension_tolerance :
    (∀ d : List DocItem, wfDoc d = true →
      parse (renderDoc d) = parse (renderDoc (eraseDoc d))) ∧
    (∀ (s : String) (rest : List Token),
      parse (Token.openDav ("multistatus") :: Token.text s :: rest) =
        Except.error FromXmlError.parseErr) ∧
    (∀ (n ns m : String) (rest : List Token),
      parse (Token.openDav ("multistatus") ::
          Token.openExt n ns :: Token.openDav m :: rest) =
        Except.error FromXmlError.parseErr) := by
  refine ⟨?_, ?_, ?_⟩
  · intro d hwf
    rw [parse_renderDoc d hwf, parse_renderDoc _ (wfDoc_erase d),
      docSem_erase]
  · intro s rest
    simp [parse, runParse, multistatusSeq, pLeft, pThen, openD, lit_cons,
      repeat0, repeat0F, extensions, extGo]
  · intro n ns m rest
    simp [parse, runParse, multistatusSeq, pLeft, pThen, openD, lit_cons,
      repeat0, repeat0F, extensions, extGo]

/-- Witness for C7 (amended): a document with extension blocks at all
three levels parses like its erased form; the two top-level error
rules at concrete inputs. -/
theorem claim7_extension_tolerance_witness :
    parse (renderDoc extDoc) = parse (renderDoc (eraseDoc extDoc)) ∧
    parse (Token.openDav ("multistatus") :: Token.text ("x") :: []) =
      Except.error FromXmlError.parseErr ∧
    parse (Token.openDav ("multistatus") :: Token.openExt ("a") ("urn:x") ::
        Token.openDav ("response") :: []) =
      Except.error FromXmlError.parseErr :=
  ⟨claim7_extension_tolerance.1 extDoc (by decide),
   claim7_extension_tolerance.2.1 ("x") [],
   claim7_extension_tolerance.2.2 ("a") ("urn:x") ("response") []⟩

/-- C7, counterexample: the same valid document with a well-nested
extension block inserted between `<prop>` and `<resourcetype>` — a
structural position of a valid multistatus token sequence — goes from
parsing successfully to a parse error, refuting "insertion at any
structural position leaves the output unchanged". -/
theorem claim7_counterexample :
    parse plainPropTokens = Except.ok ⟨[("/foo/bar/")], []⟩ ∧
    balancedExt [Token.openExt ("annot") ("urn:x"),
      Token.closeExt ("annot") ("urn:x")] = true ∧
    parse extInPropTokens = Except.error FromXmlError.parseErr :=
  ⟨by decide, by decide, by decide⟩

end Batchdav
